import Mathlib

/-!
Verification of the bone-name matching engine of the mesh2motion application.

The engine lives in two source files:
* `src/retarget/BoneAutoMapper.ts` — generic fuzzy mapper (`auto_map_bones`,
  `find_best_match`, `normalize_bone_name`, `calculate_similarity`,
  `levenshtein_distance`);
* `src/retarget/bone-automap/MixamoMapper.ts` — specialized direct mapper
  (`BONE_MAP`, `is_target_valid_skeleton`, `map_mixamo_bones`).

Strings are modelled as `List Char`.  JavaScript string operations are embedded
at the character level: `toLowerCase` as the ASCII case map (the engine's bone
names and all regex literals are ASCII; on ASCII the JS map coincides with the
one below), the regex class `[-.\s]` by an explicit separator predicate
covering the JS `\s` set, the regex word character class `\w = [A-Za-z0-9_]`
and the `\b` boundary by explicit predicates, and `String.includes` as a
contiguous-substring scan.  Similarity scores are exact rationals (all the
constants 0.6, 0.8, 0.2 and the quotients involved are exact, so the float
comparisons of the source are faithfully mirrored by `ℚ`).
-/

namespace Mesh2Motion

/-- Lowercase map on characters, ASCII range (`'A'..'Z'` shifted by 32). -/
def toLowerChar (c : Char) : Char :=
  if 65 ≤ c.toNat ∧ c.toNat ≤ 90 then Char.ofNat (c.toNat + 32) else c

/-- Characters matched by the regex class `[-.\s]` in
`normalized.replace(/[-.\s]/g, '_')`: hyphen, period, and the JS `\s`
whitespace set. -/
def isSepChar (c : Char) : Bool :=
  c == '-' || c == '.' || c == ' ' || c == '\t' || c == '\n' || c == '\r' ||
  c.toNat == 11 || c.toNat == 12 || c.toNat == 160 || c.toNat == 0x1680 ||
  (0x2000 ≤ c.toNat && c.toNat ≤ 0x200a) || c.toNat == 0x2028 || c.toNat == 0x2029 ||
  c.toNat == 0x202f || c.toNat == 0x205f || c.toNat == 0x3000 || c.toNat == 0xfeff

/-- Embedding of `bone_name.toLowerCase()`. -/
def lowerStr (s : List Char) : List Char := s.map toLowerChar

/-- Embedding of `normalized.replace(/[-.\s]/g, '_')`. -/
def sepStr (s : List Char) : List Char := s.map (fun c => if isSepChar c then '_' else c)

/-- Alternatives of the prefix regex
`/^(mixamorig|mixamorig_|rig_|bone_|jnt_|joint_)/i`, in the order the regex
engine tries them. -/
def rigTokens : List (List Char) :=
  ["mixamorig".data, "mixamorig_".data, "rig_".data, "bone_".data, "jnt_".data, "joint_".data]

/-- Embedding of `normalized.replace(/^(mixamorig|mixamorig_|rig_|bone_|jnt_|joint_)/i, '')`:
the first alternative (in regex order) that matches at the start of the string,
case-insensitively, is removed. -/
def strip_rig_token (s : List Char) : List Char :=
  match rigTokens.find? (fun p => p.isPrefixOf (lowerStr s)) with
  | some p => s.drop p.length
  | none => s

/-- Word characters of the JS regex `\w` class, `[A-Za-z0-9_]`, which also
determines the `\b` word boundary. -/
def isWordChar (c : Char) : Bool :=
  (97 ≤ c.toNat && c.toNat ≤ 122) || (65 ≤ c.toNat && c.toNat ≤ 90) ||
  (48 ≤ c.toNat && c.toNat ≤ 57) || c == '_'

/-- Boundary test before a match position: start of string, or a preceding
non-word character. -/
def boundaryOk : Option Char → Bool
  | none => true
  | some c => !(isWordChar c)

/-- Boundary test after a match: end of string, or a following non-word
character. -/
def afterOk : List Char → Bool
  | [] => true
  | c :: _ => !(isWordChar c)

/-- Embedding of `replace(/\bword\b/g, r)` for a non-empty word `wh :: wt`:
scan left to right one character at a time, carrying the previously scanned
character for the `\b` test; on a whole-word occurrence emit `r` once and
consume the remaining `skip = wt.length` matched characters without looking
for further matches inside them (the JS global replace resumes scanning after
each match, in the original string). -/
def replaceWordAux (wh : Char) (wt : List Char) (r : Char) : Option Char → Nat → List Char → List Char
  | _, _, [] => []
  | _, skip + 1, c :: rest => replaceWordAux wh wt r (some c) skip rest
  | prev, 0, c :: rest =>
    if (wh :: wt).isPrefixOf (c :: rest) && boundaryOk prev && afterOk (rest.drop wt.length) then
      r :: replaceWordAux wh wt r (some c) wt.length rest
    else
      c :: replaceWordAux wh wt r (some c) 0 rest

/-- Whole-word global replacement, entry point. -/
def replace_word (w : List Char) (r : Char) (s : List Char) : List Char :=
  match w with
  | [] => s
  | wh :: wt => replaceWordAux wh wt r none 0 s

/-- Embedding of an anchored-front replace such as `replace(/^l_/g, 'left_')`. -/
def expandFront (pat rep s : List Char) : List Char :=
  if pat.isPrefixOf s then rep ++ s.drop pat.length else s

/-- Embedding of an anchored-back replace such as `replace(/_l$/g, '_left')`. -/
def expandBack (pat rep s : List Char) : List Char :=
  if pat.isSuffixOf s then s.take (s.length - pat.length) ++ rep else s

/-- Embedding of `BoneAutoMapper.normalize_bone_name`: lowercase, separators to
underscores, strip one rig token, whole-word left/right to l/r, re-expand the
short side markers, in the order of the source. -/
def normalize_bone_name (s : List Char) : List Char :=
  expandBack "_r".data "_right".data
    (expandBack "_l".data "_left".data
      (expandFront "r_".data "right_".data
        (expandFront "l_".data "left_".data
          (replace_word "right".data 'r'
            (replace_word "left".data 'l'
              (strip_rig_token (sepStr (lowerStr s))))))))

/-- Embedding of `hay.includes(needle)`: some suffix of `hay` starts with
`needle`. -/
def containsSub (hay needle : List Char) : Bool :=
  (List.range (hay.length + 1)).any (fun i => needle.isPrefixOf (hay.drop i))

/-- Inner loop of the Levenshtein matrix fill: given the character `c` of the
first string for this row, the remaining characters of the second string, the
cell to the left, and the previous row from column `j-1` on, produce the cells
of the current row from column `j` on. -/
def stepAux (c : Char) : List Char → Nat → List Nat → List Nat
  | [], _, _ => []
  | d :: rem, left, p0 :: p1 :: pr =>
    let v := min (p1 + 1) (min (left + 1) (p0 + (if c = d then 0 else 1)))
    v :: stepAux c rem v (p1 :: pr)
  | _ :: _, _, _ => []

/-- One row of the Levenshtein matrix from the previous row (`matrix[i] = [i]`
followed by the inner `j` loop of the source). -/
def levStep (c : Char) (s2 : List Char) (prev : List Nat) : List Nat :=
  match prev with
  | [] => []
  | p0 :: _ => (p0 + 1) :: stepAux c s2 (p0 + 1) prev

/-- Embedding of `BoneAutoMapper.levenshtein_distance`: row 0 is
`0, 1, ..., len2`, each further row is computed from the previous one, and the
result is the last cell of the last row. -/
def levenshtein_distance (s1 s2 : List Char) : Nat :=
  (s1.foldl (fun prev c => levStep c s2 prev) (List.range (s2.length + 1))).getLastD 0

/-- Embedding of `BoneAutoMapper.calculate_similarity`: exact match, then
containment, then the Levenshtein tier. -/
def calculate_similarity (name1 name2 : List Char) : ℚ :=
  if name1 = name2 then 1
  else if containsSub name1 name2 || containsSub name2 name1 then
    0.8 + (((min name1.length name2.length : ℕ) : ℚ) / ((max name1.length name2.length : ℕ) : ℚ)) * 0.2
  else
    1 - ((levenshtein_distance name1 name2 : ℚ) / ((max name1.length name2.length : ℕ) : ℚ))

/-- Loop of `BoneAutoMapper.find_best_match`, carrying `best_score` and
`best_match` through the source bones. -/
def find_best_match_aux (nt : List Char) : ℚ → Option (List Char) → List (List Char) → Option (List Char)
  | _, best, [] => best
  | best_score, best, s :: rest =>
    let score := calculate_similarity nt (normalize_bone_name s)
    if best_score < score ∧ (0.6 : ℚ) ≤ score then
      find_best_match_aux nt score (some s) rest
    else
      find_best_match_aux nt best_score best rest

/-- Embedding of `BoneAutoMapper.find_best_match`. -/
def find_best_match (target : List Char) (sources : List (List Char)) : Option (List Char) :=
  find_best_match_aux (normalize_bone_name target) 0 none sources

/-- Embedding of `BoneAutoMapper.auto_map_bones`.  The JS `Map` is modelled as
the list of inserted (target, source) pairs in iteration order; since each
target of the input list is processed exactly once, repeated keys arise only
from repeated targets, with equal associated values. -/
def auto_map_bones (source_bone_names target_bone_names : List (List Char)) : List (List Char × List Char) :=
  target_bone_names.filterMap (fun t => (find_best_match t source_bone_names).map (fun s => (t, s)))

/-- Bone record of the specialized mapper.  The source type `BoneMetadata`
(declared in `bone-automap/BoneAutoMapper.ts`, outside the provided tree) is
used by `MixamoMapper` only through its `name` field, so only that field is
modelled. -/
structure BoneMetadata where
  name : List Char

/-- Embedding of the static table `MixamoMapper.BONE_MAP`, in source order. -/
def BONE_MAP : List (List Char × List Char) :=
  [("pelvis".data, "mixamorigHips".data),
   ("spine_01".data, "mixamorigSpine".data),
   ("spine_02".data, "mixamorigSpine1".data),
   ("spine_03".data, "mixamorigSpine2".data),
   ("neck_01".data, "mixamorigNeck".data),
   ("head".data, "mixamorigHead".data),
   ("head_leaf".data, "mixamorigHeadTop_End".data),
   ("clavicle_l".data, "mixamorigLeftShoulder".data),
   ("upperarm_l".data, "mixamorigLeftArm".data),
   ("lowerarm_l".data, "mixamorigLeftForeArm".data),
   ("hand_l".data, "mixamorigLeftHand".data),
   ("clavicle_r".data, "mixamorigRightShoulder".data),
   ("upperarm_r".data, "mixamorigRightArm".data),
   ("lowerarm_r".data, "mixamorigRightForeArm".data),
   ("hand_r".data, "mixamorigRightHand".data),
   ("thigh_l".data, "mixamorigLeftUpLeg".data),
   ("calf_l".data, "mixamorigLeftLeg".data),
   ("foot_l".data, "mixamorigLeftFoot".data),
   ("ball_l".data, "mixamorigLeftToeBase".data),
   ("ball_leaf_l".data, "mixamorigLeftToe_End".data),
   ("thigh_r".data, "mixamorigRightUpLeg".data),
   ("calf_r".data, "mixamorigRightLeg".data),
   ("foot_r".data, "mixamorigRightFoot".data),
   ("ball_r".data, "mixamorigRightToeBase".data),
   ("ball_leaf_r".data, "mixamorigRightToe_End".data),
   ("thumb_01_l".data, "mixamorigLeftHandThumb1".data),
   ("thumb_02_l".data, "mixamorigLeftHandThumb2".data),
   ("thumb_03_l".data, "mixamorigLeftHandThumb3".data),
   ("thumb_04_leaf_l".data, "mixamorigLeftHandThumb4".data),
   ("index_01_l".data, "mixamorigLeftHandIndex1".data),
   ("index_02_l".data, "mixamorigLeftHandIndex2".data),
   ("index_03_l".data, "mixamorigLeftHandIndex3".data),
   ("index_04_leaf_l".data, "mixamorigLeftHandIndex4".data),
   ("middle_01_l".data, "mixamorigLeftHandMiddle1".data),
   ("middle_02_l".data, "mixamorigLeftHandMiddle2".data),
   ("middle_03_l".data, "mixamorigLeftHandMiddle3".data),
   ("middle_04_leaf_l".data, "mixamorigLeftHandMiddle4".data),
   ("ring_01_l".data, "mixamorigLeftHandRing1".data),
   ("ring_02_l".data, "mixamorigLeftHandRing2".data),
   ("ring_03_l".data, "mixamorigLeftHandRing3".data),
   ("ring_04_leaf_l".data, "mixamorigLeftHandRing4".data),
   ("pinky_01_l".data, "mixamorigLeftHandPinky1".data),
   ("pinky_02_l".data, "mixamorigLeftHandPinky2".data),
   ("pinky_03_l".data, "mixamorigLeftHandPinky3".data),
   ("pinky_04_leaf_l".data, "mixamorigLeftHandPinky4".data),
   ("thumb_01_r".data, "mixamorigRightHandThumb1".data),
   ("thumb_02_r".data, "mixamorigRightHandThumb2".data),
   ("thumb_03_r".data, "mixamorigRightHandThumb3".data),
   ("thumb_04_leaf_r".data, "mixamorigRightHandThumb4".data),
   ("index_01_r".data, "mixamorigRightHandIndex1".data),
   ("index_02_r".data, "mixamorigRightHandIndex2".data),
   ("index_03_r".data, "mixamorigRightHandIndex3".data),
   ("index_04_leaf_r".data, "mixamorigRightHandIndex4".data),
   ("middle_01_r".data, "mixamorigRightHandMiddle1".data),
   ("middle_02_r".data, "mixamorigRightHandMiddle2".data),
   ("middle_03_r".data, "mixamorigRightHandMiddle3".data),
   ("middle_04_leaf_r".data, "mixamorigRightHandMiddle4".data),
   ("ring_01_r".data, "mixamorigRightHandRing1".data),
   ("ring_02_r".data, "mixamorigRightHandRing2".data),
   ("ring_03_r".data, "mixamorigRightHandRing3".data),
   ("ring_04_leaf_r".data, "mixamorigRightHandRing4".data),
   ("pinky_01_r".data, "mixamorigRightHandPinky1".data),
   ("pinky_02_r".data, "mixamorigRightHandPinky2".data),
   ("pinky_03_r".data, "mixamorigRightHandPinky3".data),
   ("pinky_04_leaf_r".data, "mixamorigRightHandPinky4".data)]

/-- Property lookup `BONE_MAP[name]` on the embedded table: first pair whose
key equals the name (the table has pairwise distinct keys). -/
def bone_map_lookup : List (List Char × List Char) → List Char → Option (List Char)
  | [], _ => none
  | (k, v) :: rest, n => if n = k then some v else bone_map_lookup rest n

/-- Embedding of `MixamoMapper.is_target_valid_skeleton`:
`bone_names.some(name => name.toLowerCase().includes('mixamorig'))`. -/
def is_target_valid_skeleton (bone_names : List (List Char)) : Bool :=
  bone_names.any (fun n => containsSub (lowerStr n) "mixamorig".data)

/-- Embedding of `MixamoMapper.map_mixamo_bones`: for each source bone, look
its name up in the table; if the expected Mixamo name is found among the
target bones, record (target name, source name).  The JS `Map` is modelled as
the list of inserted pairs in iteration order. -/
def map_mixamo_bones (source_bones target_bones : List BoneMetadata) : List (List Char × List Char) :=
  source_bones.filterMap (fun sb =>
    match bone_map_lookup BONE_MAP sb.name with
    | some expected =>
      match target_bones.find? (fun tb => tb.name == expected) with
      | some tb => some (tb.name, sb.name)
      | none => none
    | none => none)

/-! Levenshtein distance: reference recurrence, edit-script semantics, and
equivalence with the row-based matrix implementation of the source. -/

/-- Reference recurrence for the Levenshtein distance, exactly the
dynamic-programming recurrence of the specification (base cases the lengths,
step the minimum of deletion, insertion and substitution). -/
def levRec : List Char → List Char → Nat
  | [], ys => ys.length
  | x :: xs, [] => (x :: xs).length
  | x :: xs, y :: ys =>
    min (levRec xs (y :: ys) + 1)
      (min (levRec (x :: xs) ys + 1) (levRec xs ys + (if x = y then 0 else 1)))

theorem levRec_nil_left (ys : List Char) : levRec [] ys = ys.length := by
  cases ys <;> simp [levRec]

theorem levRec_nil_right (xs : List Char) : levRec xs [] = xs.length := by
  cases xs <;> simp [levRec]

theorem levRec_cons_cons (x y : Char) (xs ys : List Char) :
    levRec (x :: xs) (y :: ys) =
      min (levRec xs (y :: ys) + 1)
        (min (levRec (x :: xs) ys + 1) (levRec xs ys + (if x = y then 0 else 1))) := by
  rw [levRec]

/-- Edit scripts: `EditSeq xs ys n` holds when `xs` is transformed into `ys`
by `n` single-character edits — `keep` matches a character at no cost,
`subst` rewrites one character, `del` removes a character of `xs`, `ins`
inserts a character of `ys`. -/
inductive EditSeq : List Char → List Char → Nat → Prop
  | nil : EditSeq [] [] 0
  | keep (c : Char) {xs ys : List Char} {n : Nat} :
      EditSeq xs ys n → EditSeq (c :: xs) (c :: ys) n
  | subst (c d : Char) {xs ys : List Char} {n : Nat} :
      EditSeq xs ys n → EditSeq (c :: xs) (d :: ys) (n + 1)
  | del (c : Char) {xs ys : List Char} {n : Nat} :
      EditSeq xs ys n → EditSeq (c :: xs) ys (n + 1)
  | ins (d : Char) {xs ys : List Char} {n : Nat} :
      EditSeq xs ys n → EditSeq xs (d :: ys) (n + 1)

theorem editSeq_nil_left : ∀ ys : List Char, EditSeq [] ys ys.length
  | [] => EditSeq.nil
  | y :: ys => EditSeq.ins y (editSeq_nil_left ys)

theorem editSeq_nil_right : ∀ xs : List Char, EditSeq xs [] xs.length
  | [] => EditSeq.nil
  | x :: xs => EditSeq.del x (editSeq_nil_right xs)

/-- Achievability: the recurrence value is realized by some edit script. -/
theorem editSeq_levRec (xs ys : List Char) : EditSeq xs ys (levRec xs ys) := by
  induction xs, ys using levRec.induct with
  | case1 ys => simpa [levRec_nil_left] using editSeq_nil_left ys
  | case2 x xs => simpa [levRec_nil_right] using editSeq_nil_right (x :: xs)
  | case3 x xs y ys ih1 ih2 ih3 =>
    rw [levRec_cons_cons]
    rcases min_cases (levRec xs (y :: ys) + 1)
        (min (levRec (x :: xs) ys + 1) (levRec xs ys + (if x = y then 0 else 1))) with
      ⟨h, _⟩ | ⟨h, _⟩
    · rw [h]; exact EditSeq.del x ih1
    · rw [h]
      rcases min_cases (levRec (x :: xs) ys + 1) (levRec xs ys + (if x = y then 0 else 1)) with
        ⟨h2, _⟩ | ⟨h2, _⟩
      · rw [h2]; exact EditSeq.ins y ih2
      · rw [h2]
        by_cases hxy : x = y
        · subst hxy; simpa using EditSeq.keep x ih3
        · simpa [hxy] using EditSeq.subst x y ih3

theorem levRec_le_del (c : Char) (xs ys : List Char) :
    levRec (c :: xs) ys ≤ levRec xs ys + 1 := by
  cases ys with
  | nil => simp [levRec_nil_right]
  | cons y ys => rw [levRec_cons_cons]; exact min_le_left _ _

theorem levRec_le_ins (d : Char) (xs ys : List Char) :
    levRec xs (d :: ys) ≤ levRec xs ys + 1 := by
  cases xs with
  | nil => simp [levRec_nil_left]
  | cons x xs =>
    rw [levRec_cons_cons]
    exact le_trans (min_le_right _ _) (min_le_left _ _)

theorem levRec_le_diag (c d : Char) (xs ys : List Char) :
    levRec (c :: xs) (d :: ys) ≤ levRec xs ys + (if c = d then 0 else 1) := by
  rw [levRec_cons_cons]
  exact le_trans (min_le_right _ _) (min_le_right _ _)

/-- Optimality: no edit script beats the recurrence value. -/
theorem levRec_le_of_editSeq {xs ys : List Char} {n : Nat} (h : EditSeq xs ys n) :
    levRec xs ys ≤ n := by
  induction h with
  | nil => simp [levRec_nil_left]
  | keep c h ih =>
    refine le_trans (le_trans (levRec_le_diag c c _ _) ?_) ih
    simp
  | subst c d h ih =>
    refine le_trans (levRec_le_diag c d _ _) ?_
    have : (if c = d then 0 else 1) ≤ 1 := by split <;> omega
    omega
  | del c h ih => exact le_trans (levRec_le_del c _ _) (by omega)
  | ins d h ih => exact le_trans (levRec_le_ins d _ _) (by omega)

theorem editSeq_snoc_keep (c : Char) {xs ys : List Char} {n : Nat} (h : EditSeq xs ys n) :
    EditSeq (xs ++ [c]) (ys ++ [c]) n := by
  induction h with
  | nil => exact EditSeq.keep c EditSeq.nil
  | keep c' h ih => simpa using EditSeq.keep c' ih
  | subst c' d' h ih => simpa using EditSeq.subst c' d' ih
  | del c' h ih => simpa using EditSeq.del c' ih
  | ins d' h ih => simpa using EditSeq.ins d' ih

theorem editSeq_snoc_subst (c d : Char) {xs ys : List Char} {n : Nat} (h : EditSeq xs ys n) :
    EditSeq (xs ++ [c]) (ys ++ [d]) (n + 1) := by
  induction h with
  | nil => exact EditSeq.subst c d EditSeq.nil
  | keep c' h ih => simpa using EditSeq.keep c' ih
  | subst c' d' h ih => simpa using EditSeq.subst c' d' ih
  | del c' h ih => simpa using EditSeq.del c' ih
  | ins d' h ih => simpa using EditSeq.ins d' ih

theorem editSeq_snoc_del (c : Char) {xs ys : List Char} {n : Nat} (h : EditSeq xs ys n) :
    EditSeq (xs ++ [c]) ys (n + 1) := by
  induction h with
  | nil => exact EditSeq.del c EditSeq.nil
  | keep c' h ih => simpa using EditSeq.keep c' ih
  | subst c' d' h ih => simpa using EditSeq.subst c' d' ih
  | del c' h ih => simpa using EditSeq.del c' ih
  | ins d' h ih => simpa using EditSeq.ins d' ih

theorem editSeq_snoc_ins (d : Char) {xs ys : List Char} {n : Nat} (h : EditSeq xs ys n) :
    EditSeq xs (ys ++ [d]) (n + 1) := by
  induction h with
  | nil => exact EditSeq.ins d EditSeq.nil
  | keep c' h ih => simpa using EditSeq.keep c' ih
  | subst c' d' h ih => simpa using EditSeq.subst c' d' ih
  | del c' h ih => simpa using EditSeq.del c' ih
  | ins d' h ih => simpa using EditSeq.ins d' ih

theorem editSeq_reverse {xs ys : List Char} {n : Nat} (h : EditSeq xs ys n) :
    EditSeq xs.reverse ys.reverse n := by
  induction h with
  | nil => exact EditSeq.nil
  | keep c h ih => simpa [List.reverse_cons] using editSeq_snoc_keep c ih
  | subst c d h ih => simpa [List.reverse_cons] using editSeq_snoc_subst c d ih
  | del c h ih => simpa [List.reverse_cons] using editSeq_snoc_del c ih
  | ins d h ih => simpa [List.reverse_cons] using editSeq_snoc_ins d ih

theorem levRec_reverse (xs ys : List Char) :
    levRec xs.reverse ys.reverse = levRec xs ys := by
  refine le_antisymm (levRec_le_of_editSeq (editSeq_reverse (editSeq_levRec xs ys))) ?_
  have h := levRec_le_of_editSeq (editSeq_reverse (editSeq_levRec xs.reverse ys.reverse))
  simpa using h

/-- Row `i` of the matrix, described by the recurrence: with `a` the reversed
prefix of the first string consumed so far and `b` the reversed prefix of the
second string consumed so far, the row lists `levRec a b'` for the successive
reversed prefixes `b'` of the second string. -/
def rowSpec (a : List Char) : List Char → List Char → List Nat
  | b, [] => [levRec a b]
  | b, d :: rem => levRec a b :: rowSpec a (d :: b) rem

theorem rowSpec_shape (a b : List Char) (rem : List Char) :
    ∃ t, rowSpec a b rem = levRec a b :: t := by
  cases rem <;> exact ⟨_, rfl⟩

theorem stepAux_rowSpec (c : Char) (a : List Char) :
    ∀ (rem b : List Char),
      levRec (c :: a) b :: stepAux c rem (levRec (c :: a) b) (rowSpec a b rem) =
        rowSpec (c :: a) b rem := by
  intro rem
  induction rem with
  | nil => intro b; rfl
  | cons d r ih =>
    intro b
    obtain ⟨t, ht⟩ := rowSpec_shape a (d :: b) r
    have hv : min (levRec a (d :: b) + 1)
        (min (levRec (c :: a) b + 1) (levRec a b + (if c = d then 0 else 1))) =
          levRec (c :: a) (d :: b) := (levRec_cons_cons c d a b).symm
    calc levRec (c :: a) b :: stepAux c (d :: r) (levRec (c :: a) b) (rowSpec a b (d :: r))
        = levRec (c :: a) b :: stepAux c (d :: r) (levRec (c :: a) b)
            (levRec a b :: levRec a (d :: b) :: t) := by rw [rowSpec, ht]
      _ = levRec (c :: a) b :: levRec (c :: a) (d :: b) ::
            stepAux c r (levRec (c :: a) (d :: b)) (levRec a (d :: b) :: t) := by
            rw [stepAux, hv]
      _ = levRec (c :: a) b :: levRec (c :: a) (d :: b) ::
            stepAux c r (levRec (c :: a) (d :: b)) (rowSpec a (d :: b) r) := by rw [ht]
      _ = levRec (c :: a) b :: rowSpec (c :: a) (d :: b) r := by rw [ih (d :: b)]
      _ = rowSpec (c :: a) b (d :: r) := by rw [rowSpec]

theorem levStep_rowSpec (c : Char) (s2 a : List Char) :
    levStep c s2 (rowSpec a [] s2) = rowSpec (c :: a) [] s2 := by
  obtain ⟨t, ht⟩ := rowSpec_shape a [] s2
  have h0 : levRec a [] + 1 = levRec (c :: a) [] := by
    simp [levRec_nil_right]
  calc levStep c s2 (rowSpec a [] s2)
      = (levRec a [] + 1) :: stepAux c s2 (levRec a [] + 1) (rowSpec a [] s2) := by
        rw [ht]; rfl
    _ = levRec (c :: a) [] :: stepAux c s2 (levRec (c :: a) []) (rowSpec a [] s2) := by
        rw [h0]
    _ = rowSpec (c :: a) [] s2 := stepAux_rowSpec c a s2 []

theorem foldl_rowSpec (s2 : List Char) :
    ∀ (l : List Char) (a : List Char),
      l.foldl (fun prev c => levStep c s2 prev) (rowSpec a [] s2) =
        rowSpec (l.reverse ++ a) [] s2 := by
  intro l
  induction l with
  | nil => intro a; rfl
  | cons c r ih =>
    intro a
    have : (c :: r).reverse ++ a = r.reverse ++ (c :: a) := by
      simp
    rw [List.foldl_cons, levStep_rowSpec, ih (c :: a), this]

theorem rowSpec_range :
    ∀ (rem b : List Char), rowSpec [] b rem = List.range' b.length (rem.length + 1) := by
  intro rem
  induction rem with
  | nil => intro b; simp [rowSpec, levRec_nil_left, List.range']
  | cons d r ih =>
    intro b
    rw [rowSpec, ih (d :: b)]
    simp [List.range', levRec_nil_left]

theorem rowSpec_getLastD (a : List Char) :
    ∀ (rem b : List Char) (d0 : Nat),
      (rowSpec a b rem).getLastD d0 = levRec a (rem.reverse ++ b) := by
  intro rem
  induction rem with
  | nil => intro b d0; simp [rowSpec]
  | cons d r ih =>
    intro b d0
    rw [rowSpec, List.getLastD_cons, ih (d :: b)]
    congr 1
    simp

/-- The matrix implementation computes exactly the recurrence. -/
theorem levenshtein_eq_levRec (s1 s2 : List Char) :
    levenshtein_distance s1 s2 = levRec s1 s2 := by
  unfold levenshtein_distance
  have h0 : List.range (s2.length + 1) = rowSpec [] [] s2 := by
    rw [rowSpec_range s2 []]; simp [List.range_eq_range']
  rw [h0, foldl_rowSpec s2 s1 [], rowSpec_getLastD]
  simp [levRec_reverse]

/-! Claim C3. -/

/-- C3: the implemented `levenshtein_distance` equals the reference Levenshtein
edit distance for every pair of strings — its value is achieved by an edit
script (insertions, deletions, substitutions) and no edit script is shorter —
and the three unit checks of the specification hold. -/
theorem levenshtein_distance_correct :
    (∀ s1 s2 : List Char,
      EditSeq s1 s2 (levenshtein_distance s1 s2) ∧
        ∀ n, EditSeq s1 s2 n → levenshtein_distance s1 s2 ≤ n) ∧
    levenshtein_distance "kitten".data "sitting".data = 3 ∧
    levenshtein_distance [] [] = 0 ∧
    levenshtein_distance "a".data [] = 1 := by
  refine ⟨fun s1 s2 => ?_, by decide, by decide, by decide⟩
  rw [levenshtein_eq_levRec]
  exact ⟨editSeq_levRec s1 s2, fun n h => levRec_le_of_editSeq h⟩

/-- Witness for C3 at a concrete input: the optimality half applied to the
one-substitution script from "a" to "b". -/
theorem levenshtein_distance_correct_witness :
    levenshtein_distance "a".data "b".data ≤ 1 :=
  (levenshtein_distance_correct.1 "a".data "b".data).2 1
    (EditSeq.subst 'a' 'b' EditSeq.nil)

/-! Claim C5. -/

/-- C5 counterexample: the claim asserts that `normalize("mixamorigLeftArm")`
keeps its leading rig prefix.  It does not: the strip step is case-insensitive
and runs after lowercasing, so the leading "mixamorig" is removed and the
output is "leftarm", not the "mixamorigleftarm" the claim's transform chain
would give. -/
theorem normalize_mixamorigLeftArm_counterexample :
    normalize_bone_name "mixamorigLeftArm".data = "leftarm".data ∧
    normalize_bone_name "mixamorigLeftArm".data ≠ "mixamorigleftarm".data := by
  decide

/-- C5 (amended): `normalize("mixamorigLeftArm")` DOES strip the leading
"mixamorig" prefix (the strip regex is case-insensitive and the string has
already been lowercased), and since the lowercased "left" is followed by
"arm" it is not a whole word and is not reduced to "l"; the exact output of
the five-step transform chain is "leftarm". -/
theorem normalize_mixamorigLeftArm :
    normalize_bone_name "mixamorigLeftArm".data = "leftarm".data := by
  decide

/-! Claim C10. -/

/-- C10: on every string beginning with "mixamorig_", the prefix-strip step
removes exactly the nine characters "mixamorig" and keeps the underscore (the
regex alternation tries the alternative "mixamorig" before "mixamorig_" and
the first match wins), and in particular
`normalize("mixamorig_Hips") = "_hips"`. -/
theorem strip_rig_token_mixamorig_underscore :
    (∀ s : List Char, "mixamorig_".data <+: s → strip_rig_token s = '_' :: s.drop 10) ∧
    normalize_bone_name "mixamorig_Hips".data = "_hips".data := by
  constructor
  · intro s hpre
    obtain ⟨t, rfl⟩ := hpre
    have hfind : rigTokens.find? (fun p => p.isPrefixOf (lowerStr ("mixamorig_".data ++ t)))
        = some "mixamorig".data := by
      apply List.find?_cons_of_pos
      show ("mixamorig".data.isPrefixOf (lowerStr ("mixamorig_".data ++ t))) = true
      have : lowerStr ("mixamorig_".data ++ t) = "mixamorig_".data ++ lowerStr t := by
        rw [lowerStr, List.map_append]
        rfl
      rw [this]
      rfl
    rw [strip_rig_token, hfind]
    rfl
  · decide

/-- Witness for C10 at a concrete input. -/
theorem strip_rig_token_mixamorig_underscore_witness :
    strip_rig_token "mixamorig_hips".data = '_' :: "mixamorig_hips".data.drop 10 :=
  strip_rig_token_mixamorig_underscore.1 "mixamorig_hips".data (by decide)

/-! Claim C7. -/

theorem containsSub_iff_substring (hay needle : List Char) :
    containsSub hay needle = true ↔ needle <:+: hay := by
  constructor
  · intro h
    rw [containsSub, List.any_eq_true] at h
    obtain ⟨i, _, hp⟩ := h
    have hpre : needle <+: hay.drop i := List.isPrefixOf_iff_prefix.mp hp
    exact hpre.isInfix.trans (List.drop_suffix i hay).isInfix
  · intro h
    obtain ⟨u, v, huv⟩ := h
    rw [containsSub, List.any_eq_true]
    refine ⟨u.length, ?_, ?_⟩
    · rw [List.mem_range]
      have : hay.length = u.length + (needle.length + v.length) := by
        rw [← huv]; simp [List.length_append]
      omega
    · rw [List.isPrefixOf_iff_prefix, ← huv, List.append_assoc, List.drop_left]
      exact ⟨v, rfl⟩

/-- C7: the recognition predicate is true exactly when some name of the
collection contains "mixamorig" after lowercasing, and the two concrete
examples of the specification hold. -/
theorem is_target_valid_skeleton_iff :
    (∀ bone_names : List (List Char),
      is_target_valid_skeleton bone_names = true ↔
        ∃ n ∈ bone_names, "mixamorig".data <:+: lowerStr n) ∧
    is_target_valid_skeleton ["mixamorigHips".data, "mixamorigSpine".data] = true ∧
    is_target_valid_skeleton ["Hips".data, "Spine".data] = false := by
  refine ⟨fun bone_names => ?_, by decide, by decide⟩
  rw [is_target_valid_skeleton, List.any_eq_true]
  constructor
  · rintro ⟨n, hn, h⟩
    exact ⟨n, hn, (containsSub_iff_substring (lowerStr n) "mixamorig".data).mp h⟩
  · rintro ⟨n, hn, h⟩
    exact ⟨n, hn, (containsSub_iff_substring (lowerStr n) "mixamorig".data).mpr h⟩

/-- Witness for C7 at a concrete input. -/
theorem is_target_valid_skeleton_iff_witness :
    is_target_valid_skeleton ["mixamorigHips".data] = true :=
  (is_target_valid_skeleton_iff.1 ["mixamorigHips".data]).mpr
    ⟨"mixamorigHips".data, by simp, by decide⟩

/-! Claim C8. -/

/-- C8: `map_mixamo_bones` records the pair (expected target name, source
name) exactly for those source bones whose name is a key of the static table
and whose expected target name occurs (by exact string equality) among the
target bones; all other source bones contribute nothing (and the function is
total, so nothing is raised).  The two concrete examples of the specification
hold. -/
theorem map_mixamo_bones_spec :
    (∀ (src tgt : List BoneMetadata) (t s : List Char),
      (t, s) ∈ map_mixamo_bones src tgt ↔
        ((∃ sb ∈ src, sb.name = s) ∧ bone_map_lookup BONE_MAP s = some t ∧
          ∃ tb ∈ tgt, tb.name = t)) ∧
    map_mixamo_bones [⟨"pelvis".data⟩] [⟨"mixamorigHips".data⟩] =
      [("mixamorigHips".data, "pelvis".data)] ∧
    map_mixamo_bones [⟨"pelvis".data⟩] [⟨"Hips".data⟩] = [] := by
  refine ⟨fun src tgt t s => ?_, by decide, by decide⟩
  rw [map_mixamo_bones, List.mem_filterMap]
  constructor
  · rintro ⟨sb, hsb, hf⟩
    split at hf
    · rename_i expected hlook
      split at hf
      · rename_i tb hfind
        have hname : tb.name = expected := by
          have := List.find?_some hfind
          simpa using this
        have htb : tb ∈ tgt := List.mem_of_find?_eq_some hfind
        have hts : tb.name = t ∧ sb.name = s := by
          simpa using hf
        refine ⟨⟨sb, hsb, hts.2⟩, ?_, ⟨tb, htb, hts.1⟩⟩
        rw [← hts.2, hlook, ← hname, hts.1]
      · simp at hf
    · simp at hf
  · rintro ⟨⟨sb, hsb, hname⟩, hlook, tb0, htb0, htb0name⟩
    refine ⟨sb, hsb, ?_⟩
    rw [hname, hlook]
    have hsome : (tgt.find? (fun tb => tb.name == t)).isSome := by
      rw [List.find?_isSome]
      exact ⟨tb0, htb0, by simp [htb0name]⟩
    rcases hfind : tgt.find? (fun tb => tb.name == t) with _ | tb
    · rw [hfind] at hsome; simp at hsome
    · have : tb.name = t := by
        have := List.find?_some hfind
        simpa using this
      simp [hfind, this, hname]

/-- Witness for C8 at a concrete input. -/
theorem map_mixamo_bones_spec_witness :
    ("mixamorigHips".data, "pelvis".data) ∈
      map_mixamo_bones [⟨"pelvis".data⟩] [⟨"mixamorigHips".data⟩] :=
  (map_mixamo_bones_spec.1 [⟨"pelvis".data⟩] [⟨"mixamorigHips".data⟩]
      "mixamorigHips".data "pelvis".data).mpr
    ⟨⟨⟨"pelvis".data⟩, by simp, rfl⟩, by decide, ⟨⟨"mixamorigHips".data⟩, by simp, rfl⟩⟩

/-! Generic auto mapper: invariants of the best-match loop. -/

theorem find_best_match_aux_mem (nt : List Char) :
    ∀ (srcs : List (List Char)) (b : ℚ) (cur : Option (List Char)) (s : List Char),
      find_best_match_aux nt b cur srcs = some s → cur = some s ∨ s ∈ srcs := by
  intro srcs
  induction srcs with
  | nil =>
    intro b cur s h
    rw [find_best_match_aux] at h
    exact Or.inl h
  | cons x rest ih =>
    intro b cur s h
    simp only [find_best_match_aux] at h
    by_cases hc : b < calculate_similarity nt (normalize_bone_name x) ∧
        (0.6 : ℚ) ≤ calculate_similarity nt (normalize_bone_name x)
    · rw [if_pos hc] at h
      rcases ih _ _ _ h with h1 | h1
      · have : x = s := by injection h1
        subst this
        exact Or.inr (List.mem_cons_self _ _)
      · exact Or.inr (List.mem_cons_of_mem _ h1)
    · rw [if_neg hc] at h
      rcases ih _ _ _ h with h1 | h1
      · exact Or.inl h1
      · exact Or.inr (List.mem_cons_of_mem _ h1)

theorem find_best_match_aux_score (nt : List Char) :
    ∀ (srcs : List (List Char)) (b : ℚ) (cur : Option (List Char)),
      (∀ s0, cur = some s0 → (0.6 : ℚ) ≤ calculate_similarity nt (normalize_bone_name s0)) →
      ∀ s, find_best_match_aux nt b cur srcs = some s →
        (0.6 : ℚ) ≤ calculate_similarity nt (normalize_bone_name s) := by
  intro srcs
  induction srcs with
  | nil =>
    intro b cur hcur s h
    rw [find_best_match_aux] at h
    exact hcur s h
  | cons x rest ih =>
    intro b cur hcur s h
    simp only [find_best_match_aux] at h
    by_cases hc : b < calculate_similarity nt (normalize_bone_name x) ∧
        (0.6 : ℚ) ≤ calculate_similarity nt (normalize_bone_name x)
    · rw [if_pos hc] at h
      refine ih _ _ ?_ s h
      intro s0 hs0
      have : x = s0 := by injection hs0
      subst this
      exact hc.2
    · rw [if_neg hc] at h
      exact ih _ _ hcur s h

theorem find_best_match_aux_none (nt : List Char) :
    ∀ (srcs : List (List Char)),
      (∀ s ∈ srcs, calculate_similarity nt (normalize_bone_name s) < 0.6) →
      ∀ b, find_best_match_aux nt b none srcs = none := by
  intro srcs
  induction srcs with
  | nil => intro _ b; rw [find_best_match_aux]
  | cons x rest ih =>
    intro hall b
    simp only [find_best_match_aux]
    have hx := hall x (List.mem_cons_self _ _)
    rw [if_neg (fun hc => absurd hc.2 (not_le.mpr hx))]
    exact ih (fun s hs => hall s (List.mem_cons_of_mem _ hs)) b

/-- Membership in the auto-map result unpacks to: the key is one of the
targets, and the best-match search for it returned the value. -/
theorem mem_auto_map_elim {srcs tgts : List (List Char)} {t s : List Char}
    (hmem : (t, s) ∈ auto_map_bones srcs tgts) :
    t ∈ tgts ∧ find_best_match t srcs = some s := by
  rw [auto_map_bones, List.mem_filterMap] at hmem
  obtain ⟨t', ht', hf⟩ := hmem
  rcases hfb : find_best_match t' srcs with _ | s'
  · rw [hfb] at hf; simp at hf
  · rw [hfb] at hf
    have hts : t' = t ∧ s' = s := by simpa using hf
    obtain ⟨h1, h2⟩ := hts
    subst h1; subst h2
    exact ⟨ht', hfb⟩

/-! Claim C1. -/

/-- C1: every entry (t, s) produced by the generic auto mapper scores at
least 0.6 on the normalized pair, and a target all of whose candidates score
below 0.6 is absent from the result. -/
theorem auto_map_score_threshold (source_bone_names target_bone_names : List (List Char)) :
    (∀ t s : List Char, (t, s) ∈ auto_map_bones source_bone_names target_bone_names →
        (0.6 : ℚ) ≤ calculate_similarity (normalize_bone_name t) (normalize_bone_name s)) ∧
    (∀ t : List Char,
        (∀ s ∈ source_bone_names,
          calculate_similarity (normalize_bone_name t) (normalize_bone_name s) < 0.6) →
        ∀ s : List Char, (t, s) ∉ auto_map_bones source_bone_names target_bone_names) := by
  constructor
  · intro t s hmem
    have hfb := (mem_auto_map_elim hmem).2
    rw [find_best_match] at hfb
    exact find_best_match_aux_score _ _ _ _ (by intro s0 h0; simp at h0) _ hfb
  · intro t hall s hmem
    have hfb := (mem_auto_map_elim hmem).2
    rw [find_best_match] at hfb
    rw [find_best_match_aux_none _ _ hall 0] at hfb
    exact absurd hfb (by simp)

/-- Witness for C1 at a concrete input. -/
theorem auto_map_score_threshold_witness :
    (0.6 : ℚ) ≤ calculate_similarity (normalize_bone_name "arm".data)
      (normalize_bone_name "arm".data) := by
  refine (auto_map_score_threshold ["arm".data] ["arm".data]).1 "arm".data "arm".data ?_
  have hfb : find_best_match "arm".data ["arm".data] = some "arm".data := by
    rw [find_best_match]
    simp only [find_best_match_aux]
    rw [calculate_similarity, if_pos rfl, if_pos (by norm_num)]
  rw [auto_map_bones]
  simp [List.filterMap_cons, hfb]

/-! Claim C2. -/

/-- C2: for both mappers, every key of the result is drawn from the supplied
target collection and every value from the supplied source collection. -/
theorem mapper_soundness :
    (∀ (source_bone_names target_bone_names : List (List Char)) (t s : List Char),
      (t, s) ∈ auto_map_bones source_bone_names target_bone_names →
        t ∈ target_bone_names ∧ s ∈ source_bone_names) ∧
    (∀ (source_bones target_bones : List BoneMetadata) (t s : List Char),
      (t, s) ∈ map_mixamo_bones source_bones target_bones →
        t ∈ target_bones.map BoneMetadata.name ∧ s ∈ source_bones.map BoneMetadata.name) := by
  constructor
  · intro srcs tgts t s hmem
    obtain ⟨ht, hfb⟩ := mem_auto_map_elim hmem
    refine ⟨ht, ?_⟩
    rw [find_best_match] at hfb
    rcases find_best_match_aux_mem _ _ _ _ _ hfb with h | h
    · exact absurd h (by simp)
    · exact h
  · intro src tgt t s hmem
    rw [map_mixamo_bones, List.mem_filterMap] at hmem
    obtain ⟨sb, hsb, hf⟩ := hmem
    split at hf
    · rename_i expected hlook
      split at hf
      · rename_i tb hfind
        have hts : tb.name = t ∧ sb.name = s := by simpa using hf
        constructor
        · rw [List.mem_map]
          exact ⟨tb, List.mem_of_find?_eq_some hfind, hts.1⟩
        · rw [List.mem_map]
          exact ⟨sb, hsb, hts.2⟩
      · simp at hf
    · simp at hf

/-- Witness for C2 at a concrete input. -/
theorem mapper_soundness_witness :
    "mixamorigHips".data ∈ ([⟨"mixamorigHips".data⟩] : List BoneMetadata).map BoneMetadata.name ∧
    "pelvis".data ∈ ([⟨"pelvis".data⟩] : List BoneMetadata).map BoneMetadata.name :=
  mapper_soundness.2 [⟨"pelvis".data⟩] [⟨"mixamorigHips".data⟩]
    "mixamorigHips".data "pelvis".data (by decide)

/-! Claim C9. -/

/-- C9: against every non-empty string, the empty string scores exactly 0.8 —
the containment tier fires (every string contains the empty string) with
shorter length 0 — and in particular the score clears the 0.6 acceptance
threshold rather than being 0 or an error. -/
theorem calculate_similarity_empty_left (s : List Char) (h : s ≠ []) :
    calculate_similarity [] s = 0.8 ∧ (0.6 : ℚ) ≤ calculate_similarity [] s := by
  cases s with
  | nil => exact absurd rfl h
  | cons c t =>
    have h2 : containsSub [] (c :: t) = false := rfl
    have h3 : containsSub (c :: t) [] = true := by
      rw [containsSub, List.any_eq_true]
      exact ⟨0, by simp, rfl⟩
    have key : calculate_similarity [] (c :: t) = 0.8 := by
      rw [calculate_similarity, if_neg (by simp), if_pos (show _ = true by simp [h2, h3])]
      simp
    exact ⟨key, by rw [key]; norm_num⟩

/-- Witness for C9 at a concrete input. -/
theorem calculate_similarity_empty_left_witness :
    calculate_similarity [] "abc".data = 0.8 ∧
      (0.6 : ℚ) ≤ calculate_similarity [] "abc".data :=
  calculate_similarity_empty_left "abc".data (by decide)

/-! Claim C6. -/

/-- C6: on sources ["Hand_L", "Hand_R"] and targets ["hand_left",
"hand_right"], the auto mapper returns exactly the mapping
"hand_left" → "Hand_L", "hand_right" → "Hand_R"; normalization equalizes each
matching pair, so the exact-match tier scores it 1. -/
theorem auto_map_hand_example :
    auto_map_bones ["Hand_L".data, "Hand_R".data] ["hand_left".data, "hand_right".data] =
      [("hand_left".data, "Hand_L".data), ("hand_right".data, "Hand_R".data)] ∧
    normalize_bone_name "hand_left".data = normalize_bone_name "Hand_L".data ∧
    normalize_bone_name "hand_right".data = normalize_bone_name "Hand_R".data ∧
    calculate_similarity (normalize_bone_name "hand_left".data)
      (normalize_bone_name "Hand_L".data) = 1 ∧
    calculate_similarity (normalize_bone_name "hand_right".data)
      (normalize_bone_name "Hand_R".data) = 1 := by
  have hn1 : normalize_bone_name "hand_left".data = "hand_left".data := by decide
  have hnL : normalize_bone_name "Hand_L".data = "hand_left".data := by decide
  have hn2 : normalize_bone_name "hand_right".data = "hand_right".data := by decide
  have hnR : normalize_bone_name "Hand_R".data = "hand_right".data := by decide
  have hsame : ∀ x : List Char, calculate_similarity x x = 1 := by
    intro x
    rw [calculate_similarity, if_pos rfl]
  have hlev : levenshtein_distance "hand_left".data "hand_right".data = 4 := by decide
  have hlev2 : levenshtein_distance "hand_right".data "hand_left".data = 4 := by decide
  have hcross : calculate_similarity "hand_left".data "hand_right".data = 3/5 := by
    rw [calculate_similarity, if_neg (by decide), if_neg (by decide), hlev]
    norm_num [show ("hand_left".data.length) = 9 from rfl,
      show ("hand_right".data.length) = 10 from rfl]
  have hcross2 : calculate_similarity "hand_right".data "hand_left".data = 3/5 := by
    rw [calculate_similarity, if_neg (by decide), if_neg (by decide), hlev2]
    norm_num [show ("hand_left".data.length) = 9 from rfl,
      show ("hand_right".data.length) = 10 from rfl]
  have hfl : find_best_match "hand_left".data ["Hand_L".data, "Hand_R".data]
      = some "Hand_L".data := by
    rw [find_best_match, hn1]
    simp only [find_best_match_aux, hnL, hnR, hsame, hcross]
    norm_num
  have hfr : find_best_match "hand_right".data ["Hand_L".data, "Hand_R".data]
      = some "Hand_R".data := by
    rw [find_best_match, hn2]
    simp only [find_best_match_aux, hnL, hnR, hsame, hcross2]
    norm_num
  refine ⟨?_, by rw [hn1, hnL], by rw [hn2, hnR],
    by rw [hn1, hnL]; exact hsame _, by rw [hn2, hnR]; exact hsame _⟩
  rw [auto_map_bones]
  simp [List.filterMap_cons, hfl, hfr]

/-! Claim C4: infrastructure.  `hasWord` is the specification-side scanner for
whole-word occurrences, mirroring the scan of `replaceWordAux` position by
position; the lemmas below connect the two and culminate in: a whole-word
replacement leaves no occurrence of its own word, and creates no occurrence
of another word that shares no character with the replacement. -/

/-- Does a whole-word occurrence of `wh :: wt` appear anywhere in the string,
scanning with previous-character context `prev`? -/
def hasWord (wh : Char) (wt : List Char) : Option Char → List Char → Bool
  | _, [] => false
  | prev, c :: rest =>
    ((wh :: wt).isPrefixOf (c :: rest) && boundaryOk prev && afterOk (rest.drop wt.length)) ||
    hasWord wh wt (some c) rest

/-- Context after scanning the characters of `u`, starting from context `p`. -/
def chainLast (p : Option Char) : List Char → Option Char
  | [] => p
  | a :: u => chainLast (some a) u

theorem chainLast_cons (p : Option Char) (a : Char) (u : List Char) :
    chainLast p (a :: u) = chainLast (some a) u := rfl

theorem hasWord_cons (wh : Char) (wt : List Char) (p : Option Char) (c : Char)
    (rest : List Char) :
    hasWord wh wt p (c :: rest) =
      (((wh :: wt).isPrefixOf (c :: rest) && boundaryOk p && afterOk (rest.drop wt.length)) ||
        hasWord wh wt (some c) rest) := rfl

theorem replaceWordAux_skip (wh : Char) (wt : List Char) (r : Char) :
    ∀ (u : List Char) (p : Option Char) (v : List Char),
      replaceWordAux wh wt r p u.length (u ++ v) =
        replaceWordAux wh wt r (chainLast p u) 0 v := by
  intro u
  induction u with
  | nil => intro p v; rfl
  | cons a u ih =>
    intro p v
    show replaceWordAux wh wt r p (u.length + 1) (a :: (u ++ v)) = _
    rw [replaceWordAux, chainLast_cons]
    exact ih (some a) v

/-- Big-step equation for a successful match: emit the replacement and resume
after the matched word, with the word's last character as context. -/
theorem replaceWordAux_pos (wh : Char) (wt : List Char) (r : Char) (p : Option Char)
    (c : Char) (rest : List Char)
    (h : ((wh :: wt).isPrefixOf (c :: rest) && boundaryOk p &&
      afterOk (rest.drop wt.length)) = true) :
    replaceWordAux wh wt r p 0 (c :: rest) =
      r :: replaceWordAux wh wt r (chainLast (some c) wt) 0 (rest.drop wt.length) := by
  have h1 : (wh :: wt).isPrefixOf (c :: rest) = true := by
    simp only [Bool.and_eq_true] at h
    exact h.1.1
  obtain ⟨t, ht⟩ := List.isPrefixOf_iff_prefix.mp h1
  rw [List.cons_append] at ht
  have ht' : wt ++ t = rest := (List.cons.injEq _ _ _ _).mp ht |>.2
  rw [replaceWordAux, if_pos h]
  subst ht'
  rw [List.drop_left, replaceWordAux_skip]

/-- Big-step equation for a failed match: keep the character and move on. -/
theorem replaceWordAux_neg (wh : Char) (wt : List Char) (r : Char) (p : Option Char)
    (c : Char) (rest : List Char)
    (h : ((wh :: wt).isPrefixOf (c :: rest) && boundaryOk p &&
      afterOk (rest.drop wt.length)) = false) :
    replaceWordAux wh wt r p 0 (c :: rest) = c :: replaceWordAux wh wt r (some c) 0 rest := by
  rw [replaceWordAux, if_neg]
  simp [h]

theorem hasWord_prev_congr (wh : Char) (wt : List Char) {p q : Option Char}
    (h : boundaryOk p = boundaryOk q) :
    ∀ s, hasWord wh wt p s = hasWord wh wt q s
  | [] => rfl
  | c :: rest => by rw [hasWord_cons, hasWord_cons, h]

/-- A string without a whole-word occurrence passes through the replacement
unchanged. -/
theorem replaceWordAux_eq_self (wh : Char) (wt : List Char) (r : Char) :
    ∀ (s : List Char) (p : Option Char), hasWord wh wt p s = false →
      replaceWordAux wh wt r p 0 s = s := by
  intro s
  induction s with
  | nil => intro p _; rfl
  | cons c rest ih =>
    intro p h
    rw [hasWord_cons, Bool.or_eq_false_iff] at h
    rw [replaceWordAux_neg _ _ _ _ _ _ h.1, ih _ h.2]

theorem boundaryOk_chainLast :
    ∀ (u : List Char) (a : Char), isWordChar a = true →
      (∀ x ∈ u, isWordChar x = true) → boundaryOk (chainLast (some a) u) = false := by
  intro u
  induction u with
  | nil => intro a ha _; simp [chainLast, boundaryOk, ha]
  | cons b u ih =>
    intro a ha hall
    rw [chainLast_cons]
    exact ih b (hall b (List.mem_cons_self _ _)) (fun x hx => hall x (List.mem_cons_of_mem _ hx))

/-- A prefix made of word characters survives the replacement scan backwards:
if it prefixes the output produced under a word-character context, it already
prefixed the input (a word-character context blocks every match). -/
theorem wordPrefix_of_output (wh : Char) (wt : List Char) (r : Char) :
    ∀ (s u : List Char) (p : Char), (∀ a ∈ u, isWordChar a = true) →
      isWordChar p = true →
      u.isPrefixOf (replaceWordAux wh wt r (some p) 0 s) = true →
      u.isPrefixOf s = true := by
  intro s
  induction s with
  | nil => intro u p _ _ h; exact h
  | cons c rest ih =>
    intro u p hu hp h
    have hb : boundaryOk (some p) = false := by simp [boundaryOk, hp]
    have hcond : ((wh :: wt).isPrefixOf (c :: rest) && boundaryOk (some p) &&
        afterOk (rest.drop wt.length)) = false := by
      rw [hb]
      simp
    rw [replaceWordAux_neg _ _ _ _ _ _ hcond] at h
    cases u with
    | nil => rfl
    | cons u0 u' =>
      simp only [List.isPrefixOf, Bool.and_eq_true] at h ⊢
      refine ⟨h.1, ?_⟩
      have hu0 : u0 = c := eq_of_beq h.1
      have hc : isWordChar c = true := hu0 ▸ hu u0 (List.mem_cons_self _ _)
      exact ih u' c (fun a ha => hu a (List.mem_cons_of_mem _ ha)) hc h.2

/-- The replacement scan walks through a block of word characters unchanged
when entered under a word-character context. -/
theorem replaceWordAux_append_words (wh : Char) (wt : List Char) (r : Char) :
    ∀ (u : List Char) (p : Char) (v : List Char), (∀ a ∈ u, isWordChar a = true) →
      isWordChar p = true →
      replaceWordAux wh wt r (some p) 0 (u ++ v) =
        u ++ replaceWordAux wh wt r (chainLast (some p) u) 0 v := by
  intro u
  induction u with
  | nil => intro p v _ _; rfl
  | cons a u ih =>
    intro p v hu hp
    have hb : boundaryOk (some p) = false := by simp [boundaryOk, hp]
    have hcond : ((wh :: wt).isPrefixOf (a :: (u ++ v)) && boundaryOk (some p) &&
        afterOk ((u ++ v).drop wt.length)) = false := by
      rw [hb]
      simp
    rw [List.cons_append, replaceWordAux_neg _ _ _ _ _ _ hcond, chainLast_cons,
      ih a v (fun x hx => hu x (List.mem_cons_of_mem _ hx)) (hu a (List.mem_cons_self _ _)),
      List.cons_append]

/-- Occurrence-freedom restricts to a suffix, with the context carried along. -/
theorem hasWord_drop_context (wh : Char) (wt : List Char) :
    ∀ (u : List Char) (p : Option Char) (v : List Char),
      hasWord wh wt p (u ++ v) = false → hasWord wh wt (chainLast p u) v = false := by
  intro u
  induction u with
  | nil => intro p v h; exact h
  | cons a u ih =>
    intro p v h
    rw [List.cons_append, hasWord_cons, Bool.or_eq_false_iff] at h
    rw [chainLast_cons]
    exact ih (some a) v h.2

/-- Core lemma for the self word: after the whole-word replacement of
`wh :: wt` by the word character `r`, the output contains no whole-word
occurrence of `wh :: wt`, under any context boundary-equivalent to the one
the replacement ran with. -/
theorem hasWord_replace_self_aux (wh : Char) (wt : List Char) (r : Char)
    (hwh : isWordChar wh = true) (hwt : ∀ a ∈ wt, isWordChar a = true)
    (hwtne : wt ≠ []) (hr : isWordChar r = true) :
    ∀ (n : Nat) (s : List Char), s.length ≤ n → ∀ (p q : Option Char),
      boundaryOk q = boundaryOk p →
      hasWord wh wt q (replaceWordAux wh wt r p 0 s) = false := by
  intro n
  induction n with
  | zero =>
    intro s hs p q _
    have : s = [] := List.eq_nil_of_length_eq_zero (Nat.le_zero.mp hs)
    subst this
    rfl
  | succ n ih =>
    intro s hs p q hq
    cases s with
    | nil => rfl
    | cons c rest =>
      have hrest : rest.length ≤ n := by
        simp only [List.length_cons] at hs
        omega
      rcases hcond : ((wh :: wt).isPrefixOf (c :: rest) && boundaryOk p &&
          afterOk (rest.drop wt.length)) with _ | _
      · -- no match at this position
        rw [replaceWordAux_neg _ _ _ _ _ _ hcond, hasWord_cons, Bool.or_eq_false_iff]
        refine ⟨?_, ih rest hrest (some c) (some c) rfl⟩
        rcases hpf : (wh :: wt).isPrefixOf (c :: replaceWordAux wh wt r (some c) 0 rest)
          with _ | _
        · simp
        · rcases hb : boundaryOk q with _ | _
          · simp
          · -- transfer the prefix back to the input, then the input condition
            -- must have failed on the after-boundary
            have hparts : (wh == c) = true ∧
                wt.isPrefixOf (replaceWordAux wh wt r (some c) 0 rest) = true := by
              simpa [List.isPrefixOf, Bool.and_eq_true] using hpf
            have hc : c = wh := (eq_of_beq hparts.1).symm
            have hcw : isWordChar c = true := by rw [hc]; exact hwh
            have hwtrest : wt.isPrefixOf rest = true :=
              wordPrefix_of_output wh wt r rest wt c hwt hcw hparts.2
            have hprefIn : (wh :: wt).isPrefixOf (c :: rest) = true := by
              simp [List.isPrefixOf, hparts.1, hwtrest]
            have hbp : boundaryOk p = true := by rw [← hq, hb]
            have hafterIn : afterOk (rest.drop wt.length) = false := by
              rcases hA : afterOk (rest.drop wt.length) with _ | _
              · rfl
              · rw [hprefIn, hbp, hA] at hcond
                simp at hcond
            obtain ⟨rest2, hrest2⟩ := List.isPrefixOf_iff_prefix.mp hwtrest
            have hdrop : rest.drop wt.length = rest2 := by
              rw [← hrest2, List.drop_left]
            have hout : replaceWordAux wh wt r (some c) 0 rest =
                wt ++ replaceWordAux wh wt r (chainLast (some c) wt) 0 rest2 := by
              rw [← hrest2]
              exact replaceWordAux_append_words wh wt r wt c rest2 hwt hcw
            have hdrop2 : (replaceWordAux wh wt r (some c) 0 rest).drop wt.length =
                replaceWordAux wh wt r (chainLast (some c) wt) 0 rest2 := by
              rw [hout, List.drop_left]
            rw [hdrop] at hafterIn
            cases rest2 with
            | nil => simp [afterOk] at hafterIn
            | cons d r2 =>
              have hd : isWordChar d = true := by
                rcases hD : isWordChar d with _ | _
                · rw [afterOk, hD] at hafterIn
                  simp at hafterIn
                · rfl
              have hafter2 :
                  afterOk ((c :: replaceWordAux wh wt r (some c) 0 rest).drop
                    (wh :: wt).length) = false := by
                have : (c :: replaceWordAux wh wt r (some c) 0 rest).drop
                    (wh :: wt).length =
                    (replaceWordAux wh wt r (some c) 0 rest).drop wt.length := by
                  simp [List.length_cons]
                rw [this, hdrop2]
                rcases hcond2 : ((wh :: wt).isPrefixOf (d :: r2) &&
                    boundaryOk (chainLast (some c) wt) && afterOk (r2.drop wt.length))
                    with _ | _
                · rw [replaceWordAux_neg _ _ _ _ _ _ hcond2, afterOk, hd]
                  rfl
                · rw [replaceWordAux_pos _ _ _ _ _ _ hcond2, afterOk, hr]
                  rfl
              -- the after-boundary on the output fails, so the whole condition is false
              have : (replaceWordAux wh wt r (some c) 0 rest).drop wt.length =
                  ((c :: replaceWordAux wh wt r (some c) 0 rest).drop (wh :: wt).length) := by
                simp [List.length_cons]
              rw [show ∀ x y z : Bool, (x && y && z) = ((x && y) && z) from fun _ _ _ => rfl]
              rw [← this] at hafter2
              rw [hafter2]
              simp
      · -- match at this position: the match is replaced by `r`
        rw [replaceWordAux_pos _ _ _ _ _ _ hcond, hasWord_cons, Bool.or_eq_false_iff]
        have hcomp : ((wh :: wt).isPrefixOf (c :: rest) && boundaryOk p) = true ∧
            afterOk (rest.drop wt.length) = true := by
          simpa [Bool.and_eq_true] using hcond
        have hpf : (wh :: wt).isPrefixOf (c :: rest) = true := by
          have := hcomp.1
          simp only [Bool.and_eq_true] at this
          exact this.1
        have haf : afterOk (rest.drop wt.length) = true := hcomp.2
        have hwc : (wh == c) = true ∧ wt.isPrefixOf rest = true := by
          simpa [List.isPrefixOf, Bool.and_eq_true] using hpf
        have hc : c = wh := (eq_of_beq hwc.1).symm
        have hcw : isWordChar c = true := by rw [hc]; exact hwh
        constructor
        · -- no fresh match starting at the replacement character
          rcases hwr : (wh == r) with _ | _
          · -- heads differ, the prefix test fails
            simp [List.isPrefixOf, hwr]
          · -- same head: the word tail cannot follow, because just after the
            -- replaced occurrence there is no word character
            have hOut : wt.isPrefixOf
                (replaceWordAux wh wt r (chainLast (some c) wt) 0 (rest.drop wt.length))
                = false := by
              rcases hrest2 : rest.drop wt.length with _ | ⟨d, r2⟩
              · cases wtc : wt with
                | nil => exact absurd wtc hwtne
                | cons e wt' => rfl
              · have hd : isWordChar d = false := by
                  rw [hrest2, afterOk] at haf
                  rcases hD : isWordChar d with _ | _
                  · rfl
                  · rw [hD] at haf
                    simp at haf
                have hwd : (wh == d) = false := by
                  rcases hEq : (wh == d) with _ | _
                  · rfl
                  · have : wh = d := eq_of_beq hEq
                    rw [this, hd] at hwh
                    exact absurd hwh (by simp)
                have hcond3 : ((wh :: wt).isPrefixOf (d :: r2) &&
                    boundaryOk (chainLast (some c) wt) && afterOk (r2.drop wt.length))
                    = false := by
                  simp [List.isPrefixOf, hwd]
                rw [replaceWordAux_neg _ _ _ _ _ _ hcond3]
                cases wt with
                | nil => exact absurd rfl hwtne
                | cons e wt' =>
                  have he : isWordChar e = true := hwt e (List.mem_cons_self _ _)
                  have hed : (e == d) = false := by
                    rcases hEq : (e == d) with _ | _
                    · rfl
                    · have : e = d := eq_of_beq hEq
                      rw [this, hd] at he
                      exact absurd he (by simp)
                  simp [List.isPrefixOf, hed]
            simp [List.isPrefixOf, hOut]
        · -- behind the replacement character: induction on the remaining suffix
          have hlen : (rest.drop wt.length).length ≤ n := by
            rw [List.length_drop]
            omega
          have hbq : boundaryOk (some r) = boundaryOk (chainLast (some c) wt) := by
            rw [boundaryOk_chainLast wt c hcw hwt]
            simp [boundaryOk, hr]
          exact ih (rest.drop wt.length) hlen (chainLast (some c) wt) (some r) hbq

/-- After the whole-word replacement, no whole-word occurrence of the replaced
word remains. -/
theorem hasWord_replace_self (wh : Char) (wt : List Char) (r : Char)
    (hwh : isWordChar wh = true) (hwt : ∀ a ∈ wt, isWordChar a = true)
    (hwtne : wt ≠ []) (hr : isWordChar r = true) (s : List Char) :
    hasWord wh wt none (replaceWordAux wh wt r none 0 s) = false :=
  hasWord_replace_self_aux wh wt r hwh hwt hwtne hr s.length s le_rfl none none rfl

/-- Core lemma for a second word: whole-word replacement of `wh :: wt` by `r`
creates no whole-word occurrence of a word `vh :: vt` whose head differs from
`r`, provided none was present. -/
theorem hasWord_replace_other_aux (vh : Char) (vt : List Char) (wh : Char)
    (wt : List Char) (r : Char)
    (hvh : isWordChar vh = true) (hvt : ∀ a ∈ vt, isWordChar a = true)
    (hwh : isWordChar wh = true) (hwt : ∀ a ∈ wt, isWordChar a = true)
    (hr : isWordChar r = true) (hrv : (vh == r) = false) :
    ∀ (n : Nat) (s : List Char), s.length ≤ n → ∀ (p q : Option Char),
      boundaryOk q = boundaryOk p →
      hasWord vh vt q s = false →
      hasWord vh vt q (replaceWordAux wh wt r p 0 s) = false := by
  intro n
  induction n with
  | zero =>
    intro s hs p q _ _
    have : s = [] := List.eq_nil_of_length_eq_zero (Nat.le_zero.mp hs)
    subst this
    rfl
  | succ n ih =>
    intro s hs p q hq h
    cases s with
    | nil => rfl
    | cons c rest =>
      have hrest : rest.length ≤ n := by
        simp only [List.length_cons] at hs
        omega
      rw [hasWord_cons, Bool.or_eq_false_iff] at h
      rcases hcond : ((wh :: wt).isPrefixOf (c :: rest) && boundaryOk p &&
          afterOk (rest.drop wt.length)) with _ | _
      · -- the replacer does not fire here
        rw [replaceWordAux_neg _ _ _ _ _ _ hcond, hasWord_cons, Bool.or_eq_false_iff]
        refine ⟨?_, ih rest hrest (some c) (some c) rfl h.2⟩
        rcases hpf : (vh :: vt).isPrefixOf (c :: replaceWordAux wh wt r (some c) 0 rest)
          with _ | _
        · simp
        · rcases hb : boundaryOk q with _ | _
          · simp
          · have hparts : (vh == c) = true ∧
                vt.isPrefixOf (replaceWordAux wh wt r (some c) 0 rest) = true := by
              simpa [List.isPrefixOf, Bool.and_eq_true] using hpf
            have hc : c = vh := (eq_of_beq hparts.1).symm
            have hcw : isWordChar c = true := by rw [hc]; exact hvh
            have hvtrest : vt.isPrefixOf rest = true :=
              wordPrefix_of_output wh wt r rest vt c hvt hcw hparts.2
            have hprefIn : (vh :: vt).isPrefixOf (c :: rest) = true := by
              simp [List.isPrefixOf, hparts.1, hvtrest]
            have h1 := h.1
            have hafterIn : afterOk (rest.drop vt.length) = false := by
              rcases hA : afterOk (rest.drop vt.length) with _ | _
              · rfl
              · rw [hprefIn, hb, hA] at h1
                simp at h1
            obtain ⟨rest2, hrest2⟩ := List.isPrefixOf_iff_prefix.mp hvtrest
            have hdrop : rest.drop vt.length = rest2 := by
              rw [← hrest2, List.drop_left]
            have hout : replaceWordAux wh wt r (some c) 0 rest =
                vt ++ replaceWordAux wh wt r (chainLast (some c) vt) 0 rest2 := by
              rw [← hrest2]
              exact replaceWordAux_append_words wh wt r vt c rest2 hvt hcw
            have hdrop2 : (replaceWordAux wh wt r (some c) 0 rest).drop vt.length =
                replaceWordAux wh wt r (chainLast (some c) vt) 0 rest2 := by
              rw [hout, List.drop_left]
            rw [hdrop] at hafterIn
            cases rest2 with
            | nil => simp [afterOk] at hafterIn
            | cons d r2 =>
              have hd : isWordChar d = true := by
                rcases hD : isWordChar d with _ | _
                · rw [afterOk, hD] at hafterIn
                  simp at hafterIn
                · rfl
              have hafter2 :
                  afterOk ((replaceWordAux wh wt r (some c) 0 rest).drop vt.length)
                    = false := by
                rw [hdrop2]
                rcases hcond2 : ((wh :: wt).isPrefixOf (d :: r2) &&
                    boundaryOk (chainLast (some c) vt) && afterOk (r2.drop wt.length))
                    with _ | _
                · rw [replaceWordAux_neg _ _ _ _ _ _ hcond2, afterOk, hd]
                  rfl
                · rw [replaceWordAux_pos _ _ _ _ _ _ hcond2, afterOk, hr]
                  rfl
              simp [hafter2]
      · -- the replacer fires here
        rw [replaceWordAux_pos _ _ _ _ _ _ hcond, hasWord_cons, Bool.or_eq_false_iff]
        have hpfW : (wh :: wt).isPrefixOf (c :: rest) = true := by
          simp only [Bool.and_eq_true] at hcond
          exact hcond.1.1
        have hwc : (wh == c) = true ∧ wt.isPrefixOf rest = true := by
          simpa [List.isPrefixOf, Bool.and_eq_true] using hpfW
        have hc : c = wh := (eq_of_beq hwc.1).symm
        have hcw : isWordChar c = true := by rw [hc]; exact hwh
        obtain ⟨rest2, hrest2⟩ := List.isPrefixOf_iff_prefix.mp hwc.2
        have hdropW : rest.drop wt.length = rest2 := by
          rw [← hrest2, List.drop_left]
        have hnoecc2 : hasWord vh vt (chainLast (some c) wt) rest2 = false := by
          refine hasWord_drop_context vh vt wt (some c) rest2 ?_
          rw [hrest2]
          exact h.2
        have hbfalse : boundaryOk (chainLast (some c) wt) = false :=
          boundaryOk_chainLast wt c hcw hwt
        have hbr : boundaryOk (some r) = false := by simp [boundaryOk, hr]
        have hnoecc2r : hasWord vh vt (some r) rest2 = false := by
          rw [hasWord_prev_congr vh vt (show boundaryOk (some r) =
            boundaryOk (chainLast (some c) wt) by rw [hbr, hbfalse]) rest2]
          exact hnoecc2
        constructor
        · simp [List.isPrefixOf, hrv]
        · have hlen : (rest.drop wt.length).length ≤ n := by
            rw [List.length_drop]
            omega
          rw [hdropW]
          refine ih rest2 (by rw [← hdropW]; exact hlen) (chainLast (some c) wt)
            (some r) (by rw [hbr, hbfalse]) hnoecc2r

/-- Whole-word replacement of one word creates no whole-word occurrence of a
second word with a different head character. -/
theorem hasWord_replace_other (vh : Char) (vt : List Char) (wh : Char)
    (wt : List Char) (r : Char)
    (hvh : isWordChar vh = true) (hvt : ∀ a ∈ vt, isWordChar a = true)
    (hwh : isWordChar wh = true) (hwt : ∀ a ∈ wt, isWordChar a = true)
    (hr : isWordChar r = true) (hrv : (vh == r) = false) (s : List Char)
    (h : hasWord vh vt none s = false) :
    hasWord vh vt none (replaceWordAux wh wt r none 0 s) = false :=
  hasWord_replace_other_aux vh vt wh wt r hvh hvt hwh hwt hr hrv s.length s le_rfl
    none none rfl h

/-! Transport of occurrence-freedom through the four side-marker expansion
steps.  The two front steps rewrite a concrete two-character prefix into a
concrete block ending in an underscore, and both sides of the rewrite reduce
to the same scan of the unchanged tail; the two back steps rewrite a concrete
two-character suffix, and a generic append lemma transfers the scan. -/

theorem hasWord_lf_pat (t : List Char) :
    hasWord 'l' "eft".data none ("l_".data ++ t) = hasWord 'l' "eft".data (some '_') t := rfl

theorem hasWord_lf_rep (t : List Char) :
    hasWord 'l' "eft".data none ("left_".data ++ t) =
      hasWord 'l' "eft".data (some '_') t := rfl

theorem hasWord_rt_lf_pat (t : List Char) :
    hasWord 'r' "ight".data none ("l_".data ++ t) =
      hasWord 'r' "ight".data (some '_') t := rfl

theorem hasWord_rt_lf_rep (t : List Char) :
    hasWord 'r' "ight".data none ("left_".data ++ t) =
      hasWord 'r' "ight".data (some '_') t := rfl

theorem hasWord_lt_rf_pat (t : List Char) :
    hasWord 'l' "eft".data none ("r_".data ++ t) =
      hasWord 'l' "eft".data (some '_') t := rfl

theorem hasWord_lt_rf_rep (t : List Char) :
    hasWord 'l' "eft".data none ("right_".data ++ t) =
      hasWord 'l' "eft".data (some '_') t := rfl

theorem hasWord_rf_pat (t : List Char) :
    hasWord 'r' "ight".data none ("r_".data ++ t) =
      hasWord 'r' "ight".data (some '_') t := rfl

theorem hasWord_rf_rep (t : List Char) :
    hasWord 'r' "ight".data none ("right_".data ++ t) =
      hasWord 'r' "ight".data (some '_') t := rfl

theorem hasWord_expandFront_left_l (s : List Char)
    (h : hasWord 'l' "eft".data none s = false) :
    hasWord 'l' "eft".data none (expandFront "l_".data "left_".data s) = false := by
  rw [expandFront]
  split
  · rename_i hp
    obtain ⟨t, ht⟩ := List.isPrefixOf_iff_prefix.mp hp
    rw [← ht, List.drop_left, hasWord_lf_rep]
    rw [← ht, hasWord_lf_pat] at h
    exact h
  · exact h

theorem hasWord_expandFront_right_l (s : List Char)
    (h : hasWord 'r' "ight".data none s = false) :
    hasWord 'r' "ight".data none (expandFront "l_".data "left_".data s) = false := by
  rw [expandFront]
  split
  · rename_i hp
    obtain ⟨t, ht⟩ := List.isPrefixOf_iff_prefix.mp hp
    rw [← ht, List.drop_left, hasWord_rt_lf_rep]
    rw [← ht, hasWord_rt_lf_pat] at h
    exact h
  · exact h

theorem hasWord_expandFront_left_r (s : List Char)
    (h : hasWord 'l' "eft".data none s = false) :
    hasWord 'l' "eft".data none (expandFront "r_".data "right_".data s) = false := by
  rw [expandFront]
  split
  · rename_i hp
    obtain ⟨t, ht⟩ := List.isPrefixOf_iff_prefix.mp hp
    rw [← ht, List.drop_left, hasWord_lt_rf_rep]
    rw [← ht, hasWord_lt_rf_pat] at h
    exact h
  · exact h

theorem hasWord_expandFront_right_r (s : List Char)
    (h : hasWord 'r' "ight".data none s = false) :
    hasWord 'r' "ight".data none (expandFront "r_".data "right_".data s) = false := by
  rw [expandFront]
  split
  · rename_i hp
    obtain ⟨t, ht⟩ := List.isPrefixOf_iff_prefix.mp hp
    rw [← ht, List.drop_left, hasWord_rf_rep]
    rw [← ht, hasWord_rf_pat] at h
    exact h
  · exact h

theorem isPrefixOf_append_head_congr (x : List Char) {b : Char} (hb : b ∉ x) :
    ∀ (u t t' : List Char), x.isPrefixOf (u ++ b :: t) = x.isPrefixOf (u ++ b :: t') := by
  induction x with
  | nil => intro u t t'; cases u <;> rfl
  | cons xc x' ih =>
    intro u t t'
    have hxb : (xc == b) = false := by
      rcases hEq : (xc == b) with _ | _
      · rfl
      · exfalso
        apply hb
        rw [show xc = b from eq_of_beq hEq] at hb ⊢
        exact List.mem_cons_self _ _
    cases u with
    | nil =>
      simp only [List.nil_append, List.isPrefixOf, hxb]
      simp
    | cons a u' =>
      have hrec := ih (fun hmem => hb (List.mem_cons_of_mem _ hmem)) u' t t'
      simp only [List.cons_append, List.isPrefixOf, List.append_eq]
      rw [hrec]

theorem length_le_of_isPrefixOf_append (x : List Char) {b : Char} (hb : b ∉ x) :
    ∀ (u t : List Char), x.isPrefixOf (u ++ b :: t) = true → x.length ≤ u.length := by
  induction x with
  | nil => intro u t _; simp
  | cons xc x' ih =>
    intro u t h
    cases u with
    | nil =>
      simp only [List.nil_append, List.isPrefixOf, Bool.and_eq_true] at h
      exfalso
      apply hb
      rw [show xc = b from eq_of_beq h.1] at hb ⊢
      exact List.mem_cons_self _ _
    | cons a u' =>
      simp only [List.cons_append, List.isPrefixOf, Bool.and_eq_true] at h
      have := ih (fun hmem => hb (List.mem_cons_of_mem _ hmem)) u' t h.2
      simp only [List.length_cons]
      omega

theorem afterOk_append_head_congr {b : Char} (x v w : List Char)
    (hv : v.head? = some b) (hw : w.head? = some b) :
    afterOk (x ++ v) = afterOk (x ++ w) := by
  cases x with
  | nil =>
    obtain ⟨v₁, rfl⟩ : ∃ v₁, v = b :: v₁ := by
      cases v with
      | nil => simp at hv
      | cons c v₁ => exact ⟨v₁, by simpa using (by simpa using hv : c = b) ▸ rfl⟩
    obtain ⟨w₁, rfl⟩ : ∃ w₁, w = b :: w₁ := by
      cases w with
      | nil => simp at hw
      | cons c w₁ => exact ⟨w₁, by simpa using (by simpa using hw : c = b) ▸ rfl⟩
    rfl
  | cons a x' => rfl

/-- Occurrence-freedom is preserved when a tail `v` is exchanged for a tail
`w` that starts with the same non-word-of-the-pattern character and is itself
occurrence-free: no occurrence can cross into the exchanged tail past a
character forbidden in the pattern. -/
theorem hasWord_append_swap (vh : Char) (vt : List Char) (v w : List Char) (b : Char)
    (hbv : b ∉ vh :: vt) (hv : v.head? = some b) (hw : w.head? = some b)
    (hall : ∀ p, hasWord vh vt p w = false) :
    ∀ (u : List Char) (p : Option Char), hasWord vh vt p (u ++ v) = false →
      hasWord vh vt p (u ++ w) = false := by
  intro u
  induction u with
  | nil => intro p _; exact hall p
  | cons a u' ih =>
    intro p h
    rw [List.cons_append, hasWord_cons, Bool.or_eq_false_iff] at h
    rw [List.cons_append, hasWord_cons, Bool.or_eq_false_iff]
    refine ⟨?_, ih (some a) h.2⟩
    obtain ⟨v₁, rfl⟩ : ∃ v₁, v = b :: v₁ := by
      cases v with
      | nil => simp at hv
      | cons c v₁ => exact ⟨v₁, by simpa using (by simpa using hv : c = b) ▸ rfl⟩
    obtain ⟨w₁, rfl⟩ : ∃ w₁, w = b :: w₁ := by
      cases w with
      | nil => simp at hw
      | cons c w₁ => exact ⟨w₁, by simpa using (by simpa using hw : c = b) ▸ rfl⟩
    rcases hpf : (vh :: vt).isPrefixOf (a :: (u' ++ b :: w₁)) with _ | _
    · simp
    · have hpfv : (vh :: vt).isPrefixOf (a :: (u' ++ b :: v₁)) = true := by
        have := isPrefixOf_append_head_congr (vh :: vt) hbv (a :: u') w₁ v₁
        simp only [List.cons_append] at this
        rw [← this]
        exact hpf
      have hlen : vt.length ≤ u'.length := by
        have := length_le_of_isPrefixOf_append (vh :: vt) hbv (a :: u') w₁ (by
          simpa [List.cons_append] using hpf)
        simp only [List.length_cons] at this
        omega
      rcases hbnd : boundaryOk p with _ | _
      · simp
      · have h1 := h.1
        rw [hpfv, hbnd] at h1
        have haftv : afterOk ((u' ++ b :: v₁).drop vt.length) = false := by
          rcases hA : afterOk ((u' ++ b :: v₁).drop vt.length) with _ | _
          · rfl
          · rw [hA] at h1
            simp at h1
        have haftw : afterOk ((u' ++ b :: w₁).drop vt.length) = false := by
          rw [List.drop_append_of_le_length hlen] at haftv ⊢
          rw [afterOk_append_head_congr (u'.drop vt.length) (b :: w₁) (b :: v₁) rfl rfl]
          exact haftv
        rw [haftw]
        simp

theorem isSuffixOf_append_right (pat u v : List Char) (h : pat.length ≤ v.length) :
    pat.isSuffixOf (u ++ v) = pat.isSuffixOf v := by
  rcases hb : pat.isSuffixOf v with _ | _
  · rcases hbu : pat.isSuffixOf (u ++ v) with _ | _
    · rfl
    · exfalso
      obtain ⟨wpre, hw⟩ := List.isSuffixOf_iff_suffix.mp hbu
      have hlen : wpre.length + pat.length = u.length + v.length := by
        rw [← List.length_append, hw, List.length_append]
      have hpat : pat = v.drop (wpre.length - u.length) := by
        have h1 : (wpre ++ pat).drop wpre.length = pat := List.drop_left _ _
        rw [hw, show wpre.length = u.length + (wpre.length - u.length) by omega,
          List.drop_append] at h1
        exact h1.symm
      have hsv : pat <:+ v := hpat ▸ List.drop_suffix _ _
      have := (List.isSuffixOf_iff_suffix.mpr hsv).symm.trans hb
      simp at this
  · obtain ⟨wpre, hw⟩ := List.isSuffixOf_iff_suffix.mp hb
    exact List.isSuffixOf_iff_suffix.mpr ⟨u ++ wpre, by rw [List.append_assoc, hw]⟩

theorem take_sub_of_suffix {s u pat : List Char} (hu : u ++ pat = s) :
    s.take (s.length - pat.length) = u := by
  rw [← hu]
  have : (u ++ pat).length - pat.length = u.length := by
    simp [List.length_append]
  rw [this, List.take_left]

theorem hasWord_expandBack_left_l (s : List Char)
    (h : hasWord 'l' "eft".data none s = false) :
    hasWord 'l' "eft".data none (expandBack "_l".data "_left".data s) = false := by
  rw [expandBack]
  split
  · rename_i hp
    obtain ⟨u, hu⟩ := List.isSuffixOf_iff_suffix.mp hp
    rw [take_sub_of_suffix hu]
    refine hasWord_append_swap 'l' "eft".data "_l".data "_left".data '_'
      (by decide) rfl rfl (fun p => rfl) u none ?_
    rw [hu]
    exact h
  · exact h

theorem hasWord_expandBack_right_l (s : List Char)
    (h : hasWord 'r' "ight".data none s = false) :
    hasWord 'r' "ight".data none (expandBack "_l".data "_left".data s) = false := by
  rw [expandBack]
  split
  · rename_i hp
    obtain ⟨u, hu⟩ := List.isSuffixOf_iff_suffix.mp hp
    rw [take_sub_of_suffix hu]
    refine hasWord_append_swap 'r' "ight".data "_l".data "_left".data '_'
      (by decide) rfl rfl (fun p => rfl) u none ?_
    rw [hu]
    exact h
  · exact h

theorem hasWord_expandBack_left_r (s : List Char)
    (h : hasWord 'l' "eft".data none s = false) :
    hasWord 'l' "eft".data none (expandBack "_r".data "_right".data s) = false := by
  rw [expandBack]
  split
  · rename_i hp
    obtain ⟨u, hu⟩ := List.isSuffixOf_iff_suffix.mp hp
    rw [take_sub_of_suffix hu]
    refine hasWord_append_swap 'l' "eft".data "_r".data "_right".data '_'
      (by decide) rfl rfl (fun p => rfl) u none ?_
    rw [hu]
    exact h
  · exact h

theorem hasWord_expandBack_right_r (s : List Char)
    (h : hasWord 'r' "ight".data none s = false) :
    hasWord 'r' "ight".data none (expandBack "_r".data "_right".data s) = false := by
  rw [expandBack]
  split
  · rename_i hp
    obtain ⟨u, hu⟩ := List.isSuffixOf_iff_suffix.mp hp
    rw [take_sub_of_suffix hu]
    refine hasWord_append_swap 'r' "ight".data "_r".data "_right".data '_'
      (by decide) rfl rfl (fun p => rfl) u none ?_
    rw [hu]
    exact h
  · exact h

theorem nil_isPrefixOf (l : List Char) : ([] : List Char).isPrefixOf l = true := by
  cases l <;> rfl

/-- An anchored prefix test only inspects the first `pat.length` characters,
so tails agreeing up to that depth are interchangeable. -/
theorem isPrefixOf_append_congr (pat : List Char) :
    ∀ (u v w : List Char), v.take pat.length = w.take pat.length →
      pat.isPrefixOf (u ++ v) = pat.isPrefixOf (u ++ w) := by
  induction pat with
  | nil => intro u v w _; rw [nil_isPrefixOf, nil_isPrefixOf]
  | cons pc pat' ih =>
    intro u v w hvw
    cases u with
    | cons a u' =>
      have htk : v.take pat'.length = w.take pat'.length := by
        have h1 : v.take pat'.length = (v.take (pat'.length + 1)).take pat'.length := by
          rw [List.take_take, min_eq_left (by omega)]
        have h2 : w.take pat'.length = (w.take (pat'.length + 1)).take pat'.length := by
          rw [List.take_take, min_eq_left (by omega)]
        rw [h1, h2, show v.take (pat'.length + 1) = w.take (pat'.length + 1) from hvw]
      have hrec := ih u' v w htk
      simp only [List.cons_append, List.isPrefixOf, List.append_eq]
      rw [hrec]
    | nil =>
      cases v with
      | nil =>
        cases w with
        | nil => rfl
        | cons wc w' =>
          simp only [List.take_nil, List.length_cons, List.take_succ_cons] at hvw
          exact absurd hvw.symm (by simp)
      | cons vc v' =>
        cases w with
        | nil =>
          simp only [List.take_nil, List.length_cons, List.take_succ_cons] at hvw
          exact absurd hvw (by simp)
        | cons wc w' =>
          simp only [List.length_cons, List.take_succ_cons, List.cons.injEq] at hvw
          obtain ⟨rfl, htk⟩ := hvw
          have hrec := ih [] v' w' htk
          simp only [List.nil_append] at hrec ⊢
          simp only [List.isPrefixOf]
          rw [hrec]

/-- After the `^l_` expansion the string never starts with "l_". -/
theorem front_l_absent (z : List Char) :
    "l_".data.isPrefixOf (expandFront "l_".data "left_".data z) = false := by
  rw [expandFront]
  split
  · rename_i hp
    obtain ⟨t, ht⟩ := List.isPrefixOf_iff_prefix.mp hp
    rw [← ht, List.drop_left]
    rfl
  · rename_i hp
    simp only [Bool.not_eq_true] at hp
    exact hp

theorem front_l_preserved (z : List Char)
    (h : "l_".data.isPrefixOf z = false) :
    "l_".data.isPrefixOf (expandFront "r_".data "right_".data z) = false := by
  rw [expandFront]
  split
  · rename_i hp
    obtain ⟨t, ht⟩ := List.isPrefixOf_iff_prefix.mp hp
    rw [← ht, List.drop_left]
    rfl
  · exact h

/-- After the `^r_` expansion the string never starts with "r_". -/
theorem front_r_absent (z : List Char) :
    "r_".data.isPrefixOf (expandFront "r_".data "right_".data z) = false := by
  rw [expandFront]
  split
  · rename_i hp
    obtain ⟨t, ht⟩ := List.isPrefixOf_iff_prefix.mp hp
    rw [← ht, List.drop_left]
    rfl
  · rename_i hp
    simp only [Bool.not_eq_true] at hp
    exact hp

/-- The `_l$` expansion keeps both front conditions and removes the "_l"
suffix. -/
theorem back_l_step (z : List Char)
    (hl : "l_".data.isPrefixOf z = false) (hr : "r_".data.isPrefixOf z = false) :
    "l_".data.isPrefixOf (expandBack "_l".data "_left".data z) = false ∧
    "r_".data.isPrefixOf (expandBack "_l".data "_left".data z) = false ∧
    "_l".data.isSuffixOf (expandBack "_l".data "_left".data z) = false := by
  rw [expandBack]
  split
  · rename_i hp
    obtain ⟨u, hu⟩ := List.isSuffixOf_iff_suffix.mp hp
    rw [take_sub_of_suffix hu]
    refine ⟨?_, ?_, ?_⟩
    · rw [isPrefixOf_append_congr "l_".data u "_left".data "_l".data (by decide), hu]
      exact hl
    · rw [isPrefixOf_append_congr "r_".data u "_left".data "_l".data (by decide), hu]
      exact hr
    · rw [isSuffixOf_append_right "_l".data u "_left".data (by decide)]
      decide
  · rename_i hp
    simp only [Bool.not_eq_true] at hp
    exact ⟨hl, hr, hp⟩

/-- The `_r$` expansion keeps all earlier conditions and removes the "_r"
suffix. -/
theorem back_r_step (z : List Char)
    (hl : "l_".data.isPrefixOf z = false) (hr : "r_".data.isPrefixOf z = false)
    (hsl : "_l".data.isSuffixOf z = false) :
    "l_".data.isPrefixOf (expandBack "_r".data "_right".data z) = false ∧
    "r_".data.isPrefixOf (expandBack "_r".data "_right".data z) = false ∧
    "_l".data.isSuffixOf (expandBack "_r".data "_right".data z) = false ∧
    "_r".data.isSuffixOf (expandBack "_r".data "_right".data z) = false := by
  rw [expandBack]
  split
  · rename_i hp
    obtain ⟨u, hu⟩ := List.isSuffixOf_iff_suffix.mp hp
    rw [take_sub_of_suffix hu]
    refine ⟨?_, ?_, ?_, ?_⟩
    · rw [isPrefixOf_append_congr "l_".data u "_right".data "_r".data (by decide), hu]
      exact hl
    · rw [isPrefixOf_append_congr "r_".data u "_right".data "_r".data (by decide), hu]
      exact hr
    · rw [isSuffixOf_append_right "_l".data u "_right".data (by decide)]
      decide
    · rw [isSuffixOf_append_right "_r".data u "_right".data (by decide)]
      decide
  · rename_i hp
    simp only [Bool.not_eq_true] at hp
    exact ⟨hl, hr, hsl, hp⟩

/-- After the full four-step expansion chain, none of the four rewritten
side-marker patterns is present at its anchor. -/
theorem expand_chain_absent (w : List Char) :
    "l_".data.isPrefixOf
      (expandBack "_r".data "_right".data (expandBack "_l".data "_left".data
        (expandFront "r_".data "right_".data (expandFront "l_".data "left_".data w))))
      = false ∧
    "r_".data.isPrefixOf
      (expandBack "_r".data "_right".data (expandBack "_l".data "_left".data
        (expandFront "r_".data "right_".data (expandFront "l_".data "left_".data w))))
      = false ∧
    "_l".data.isSuffixOf
      (expandBack "_r".data "_right".data (expandBack "_l".data "_left".data
        (expandFront "r_".data "right_".data (expandFront "l_".data "left_".data w))))
      = false ∧
    "_r".data.isSuffixOf
      (expandBack "_r".data "_right".data (expandBack "_l".data "_left".data
        (expandFront "r_".data "right_".data (expandFront "l_".data "left_".data w))))
      = false := by
  have h1 := front_l_absent w
  have h2a := front_l_preserved _ h1
  have h2b := front_r_absent (expandFront "l_".data "left_".data w)
  have h3 := back_l_step _ h2a h2b
  exact back_r_step _ h3.1 h3.2.1 h3.2.2

/-! Character-level invariant: every character of a normalized name is fixed
by the lowercase map and is not a separator, so the first two steps of a
second normalization pass are the identity. -/

theorem toLowerChar_idem (c : Char) : toLowerChar (toLowerChar c) = toLowerChar c := by
  by_cases h : 65 ≤ c.toNat ∧ c.toNat ≤ 90
  · have h1 : toLowerChar c = Char.ofNat (c.toNat + 32) := by
      rw [toLowerChar, if_pos h]
    have hval : (c.toNat + 32).isValidChar := Or.inl (by omega)
    have htn : (Char.ofNat (c.toNat + 32)).toNat = c.toNat + 32 := by
      rw [Char.ofNat, dif_pos hval]
      rfl
    rw [h1, toLowerChar, htn, if_neg (by omega)]
  · have h1 : toLowerChar c = c := by rw [toLowerChar, if_neg h]
    rw [h1, h1]

theorem mem_lowerStr_fixed {c : Char} {s : List Char} (h : c ∈ lowerStr s) :
    toLowerChar c = c := by
  rw [lowerStr] at h
  obtain ⟨a, _, rfl⟩ := List.mem_map.mp h
  exact toLowerChar_idem a

theorem mem_sepStr_fixed {c : Char} {s : List Char} (h : c ∈ sepStr s)
    (hs : ∀ a ∈ s, toLowerChar a = a) :
    toLowerChar c = c ∧ isSepChar c = false := by
  rw [sepStr] at h
  obtain ⟨a, ha, rfl⟩ := List.mem_map.mp h
  by_cases hsep : isSepChar a = true
  · rw [if_pos hsep]
    decide
  · rw [if_neg hsep]
    exact ⟨hs a ha, by simpa using hsep⟩

theorem mem_strip_rig_token {c : Char} {s : List Char} (h : c ∈ strip_rig_token s) :
    c ∈ s := by
  rw [strip_rig_token] at h
  split at h
  · exact List.drop_subset _ _ h
  · exact h

theorem mem_replaceWordAux (wh : Char) (wt : List Char) (r : Char) :
    ∀ (s : List Char) (p : Option Char) (k : Nat) (c : Char),
      c ∈ replaceWordAux wh wt r p k s → c = r ∨ c ∈ s := by
  intro s
  induction s with
  | nil => intro p k c h; exact absurd h (by simp [replaceWordAux])
  | cons a rest ih =>
    intro p k c h
    cases k with
    | succ k' =>
      rw [replaceWordAux] at h
      rcases ih (some a) k' c h with h1 | h1
      · exact Or.inl h1
      · exact Or.inr (List.mem_cons_of_mem _ h1)
    | zero =>
      rw [replaceWordAux] at h
      split at h
      · rcases List.mem_cons.mp h with h1 | h1
        · exact Or.inl h1
        · rcases ih (some a) wt.length c h1 with h2 | h2
          · exact Or.inl h2
          · exact Or.inr (List.mem_cons_of_mem _ h2)
      · rcases List.mem_cons.mp h with h1 | h1
        · exact Or.inr (h1 ▸ List.mem_cons_self _ _)
        · rcases ih (some a) 0 c h1 with h2 | h2
          · exact Or.inl h2
          · exact Or.inr (List.mem_cons_of_mem _ h2)

theorem mem_expandFront {pat rep s : List Char} {c : Char}
    (h : c ∈ expandFront pat rep s) : c ∈ rep ∨ c ∈ s := by
  rw [expandFront] at h
  split at h
  · rcases List.mem_append.mp h with h1 | h1
    · exact Or.inl h1
    · exact Or.inr (List.drop_subset _ _ h1)
  · exact Or.inr h

theorem mem_expandBack {pat rep s : List Char} {c : Char}
    (h : c ∈ expandBack pat rep s) : c ∈ rep ∨ c ∈ s := by
  rw [expandBack] at h
  split at h
  · rcases List.mem_append.mp h with h1 | h1
    · exact Or.inr (List.take_subset _ _ h1)
    · exact Or.inl h1
  · exact Or.inr h

/-- Every character of a normalized bone name is lowercase-fixed and is not a
separator. -/
theorem mem_normalize_fixed {x : List Char} {c : Char}
    (h : c ∈ normalize_bone_name x) :
    toLowerChar c = c ∧ isSepChar c = false := by
  rw [normalize_bone_name] at h
  have h0 : ∀ a ∈ sepStr (lowerStr x), toLowerChar a = a ∧ isSepChar a = false :=
    fun a ha => mem_sepStr_fixed ha (fun b hb => mem_lowerStr_fixed hb)
  have h1 : ∀ a ∈ strip_rig_token (sepStr (lowerStr x)),
      toLowerChar a = a ∧ isSepChar a = false :=
    fun a ha => h0 a (mem_strip_rig_token ha)
  have h2 : ∀ a ∈ replace_word "left".data 'l' (strip_rig_token (sepStr (lowerStr x))),
      toLowerChar a = a ∧ isSepChar a = false := by
    intro a ha
    rcases mem_replaceWordAux 'l' "eft".data 'l' _ none 0 a ha with h' | h'
    · subst h'; decide
    · exact h1 a h'
  have h3 : ∀ a ∈ replace_word "right".data 'r'
      (replace_word "left".data 'l' (strip_rig_token (sepStr (lowerStr x)))),
      toLowerChar a = a ∧ isSepChar a = false := by
    intro a ha
    rcases mem_replaceWordAux 'r' "ight".data 'r' _ none 0 a ha with h' | h'
    · subst h'; decide
    · exact h2 a h'
  have h4 : ∀ a ∈ expandFront "l_".data "left_".data (replace_word "right".data 'r'
      (replace_word "left".data 'l' (strip_rig_token (sepStr (lowerStr x))))),
      toLowerChar a = a ∧ isSepChar a = false := by
    intro a ha
    rcases mem_expandFront ha with h' | h'
    · exact (by decide : ∀ b ∈ "left_".data, toLowerChar b = b ∧ isSepChar b = false) a h'
    · exact h3 a h'
  have h5 : ∀ a ∈ expandFront "r_".data "right_".data (expandFront "l_".data "left_".data
      (replace_word "right".data 'r' (replace_word "left".data 'l'
        (strip_rig_token (sepStr (lowerStr x)))))),
      toLowerChar a = a ∧ isSepChar a = false := by
    intro a ha
    rcases mem_expandFront ha with h' | h'
    · exact (by decide : ∀ b ∈ "right_".data, toLowerChar b = b ∧ isSepChar b = false) a h'
    · exact h4 a h'
  have h6 : ∀ a ∈ expandBack "_l".data "_left".data (expandFront "r_".data "right_".data
      (expandFront "l_".data "left_".data (replace_word "right".data 'r'
        (replace_word "left".data 'l' (strip_rig_token (sepStr (lowerStr x))))))),
      toLowerChar a = a ∧ isSepChar a = false := by
    intro a ha
    rcases mem_expandBack ha with h' | h'
    · exact (by decide : ∀ b ∈ "_left".data, toLowerChar b = b ∧ isSepChar b = false) a h'
    · exact h5 a h'
  rcases mem_expandBack h with h' | h'
  · exact (by decide : ∀ b ∈ "_right".data, toLowerChar b = b ∧ isSepChar b = false) c h'
  · exact h6 c h'

theorem lowerStr_fixed {s : List Char} (h : ∀ c ∈ s, toLowerChar c = c) :
    lowerStr s = s := by
  rw [lowerStr]
  induction s with
  | nil => rfl
  | cons a t ih =>
    rw [List.map_cons, h a (List.mem_cons_self _ _),
      ih (fun c hc => h c (List.mem_cons_of_mem _ hc))]

theorem sepStr_fixed {s : List Char} (h : ∀ c ∈ s, isSepChar c = false) :
    sepStr s = s := by
  rw [sepStr]
  induction s with
  | nil => rfl
  | cons a t ih =>
    rw [List.map_cons, if_neg (by simp [h a (List.mem_cons_self _ _)]),
      ih (fun c hc => h c (List.mem_cons_of_mem _ hc))]

/-! Claim C4. -/

/-- C4 counterexample: normalization is not idempotent.  On "rig_rig_x" the
first pass strips one "rig_" token and leaves "rig_x"; a second pass strips
the now-leading second token, giving "x". -/
theorem normalize_not_idempotent :
    normalize_bone_name (normalize_bone_name "rig_rig_x".data) ≠
      normalize_bone_name "rig_rig_x".data := by
  decide

/-- C4 (amended): normalization is idempotent for every input whose
normalized form is left unchanged by the prefix-strip step — equivalently,
whose normalized form does not again begin with a strippable rig token.  (The
counterexample "rig_rig_x" shows the restriction is needed: a doubled token
survives the first pass and is stripped by the second.)  All other steps of a
second pass are the identity on a normalized name: its characters are
lowercase-fixed non-separators, it contains no whole-word "left" or "right",
and it neither starts with "l_"/"r_" nor ends with "_l"/"_r". -/
theorem normalize_idempotent_of_strip_fixed (x : List Char)
    (h : strip_rig_token (normalize_bone_name x) = normalize_bone_name x) :
    normalize_bone_name (normalize_bone_name x) = normalize_bone_name x := by
  have hL : hasWord 'l' "eft".data none (normalize_bone_name x) = false := by
    rw [normalize_bone_name]
    refine hasWord_expandBack_left_r _ (hasWord_expandBack_left_l _
      (hasWord_expandFront_left_r _ (hasWord_expandFront_left_l _ ?_)))
    show hasWord 'l' "eft".data none
      (replaceWordAux 'r' "ight".data 'r' none 0
        (replaceWordAux 'l' "eft".data 'l' none 0
          (strip_rig_token (sepStr (lowerStr x))))) = false
    refine hasWord_replace_other 'l' "eft".data 'r' "ight".data 'r' (by decide)
      (by decide) (by decide) (by decide) (by decide) (by decide) _ ?_
    exact hasWord_replace_self 'l' "eft".data 'l' (by decide) (by decide)
      (by decide) (by decide) _
  have hR : hasWord 'r' "ight".data none (normalize_bone_name x) = false := by
    rw [normalize_bone_name]
    refine hasWord_expandBack_right_r _ (hasWord_expandBack_right_l _
      (hasWord_expandFront_right_r _ (hasWord_expandFront_right_l _ ?_)))
    show hasWord 'r' "ight".data none
      (replaceWordAux 'r' "ight".data 'r' none 0
        (replaceWordAux 'l' "eft".data 'l' none 0
          (strip_rig_token (sepStr (lowerStr x))))) = false
    exact hasWord_replace_self 'r' "ight".data 'r' (by decide) (by decide)
      (by decide) (by decide) _
  have habs := expand_chain_absent (replace_word "right".data 'r'
    (replace_word "left".data 'l' (strip_rig_token (sepStr (lowerStr x)))))
  have hysyn : normalize_bone_name x = expandBack "_r".data "_right".data
      (expandBack "_l".data "_left".data (expandFront "r_".data "right_".data
        (expandFront "l_".data "left_".data (replace_word "right".data 'r'
          (replace_word "left".data 'l' (strip_rig_token (sepStr (lowerStr x)))))))) := by
    rw [normalize_bone_name]
  rw [← hysyn] at habs
  have hlow : lowerStr (normalize_bone_name x) = normalize_bone_name x :=
    lowerStr_fixed (fun c hc => (mem_normalize_fixed hc).1)
  have hsep : sepStr (normalize_bone_name x) = normalize_bone_name x :=
    sepStr_fixed (fun c hc => (mem_normalize_fixed hc).2)
  have hwl : replace_word "left".data 'l' (normalize_bone_name x) =
      normalize_bone_name x := by
    show replaceWordAux 'l' "eft".data 'l' none 0 (normalize_bone_name x) = _
    exact replaceWordAux_eq_self _ _ _ _ none hL
  have hwr : replace_word "right".data 'r' (normalize_bone_name x) =
      normalize_bone_name x := by
    show replaceWordAux 'r' "ight".data 'r' none 0 (normalize_bone_name x) = _
    exact replaceWordAux_eq_self _ _ _ _ none hR
  have he1 : expandFront "l_".data "left_".data (normalize_bone_name x) =
      normalize_bone_name x := by
    rw [expandFront, if_neg (by simp [habs.1])]
  have he2 : expandFront "r_".data "right_".data (normalize_bone_name x) =
      normalize_bone_name x := by
    rw [expandFront, if_neg (by simp [habs.2.1])]
  have he3 : expandBack "_l".data "_left".data (normalize_bone_name x) =
      normalize_bone_name x := by
    rw [expandBack, if_neg (by simp [habs.2.2.1])]
  have he4 : expandBack "_r".data "_right".data (normalize_bone_name x) =
      normalize_bone_name x := by
    rw [expandBack, if_neg (by simp [habs.2.2.2])]
  calc normalize_bone_name (normalize_bone_name x)
      = expandBack "_r".data "_right".data (expandBack "_l".data "_left".data
          (expandFront "r_".data "right_".data (expandFront "l_".data "left_".data
            (replace_word "right".data 'r' (replace_word "left".data 'l'
              (strip_rig_token (sepStr (lowerStr (normalize_bone_name x))))))))) := rfl
    _ = normalize_bone_name x := by
        rw [hlow, hsep, h, hwl, hwr, he1, he2, he3, he4]

/-- Witness for C4 at a concrete input whose normalized form carries no rig
token. -/
theorem normalize_idempotent_witness :
    normalize_bone_name (normalize_bone_name "Hand_L".data) =
      normalize_bone_name "Hand_L".data :=
  normalize_idempotent_of_strip_fixed "Hand_L".data (by decide)

end Mesh2Motion
